import Mathlib

/-!
Verification of the socket transport layer of the rhinomcp repository.

The definitions below are a shallow embedding of
src/shared/python/mcp_shared/connection.py (class PluginConnection and
create_connection_manager), which is byte-for-byte the same algorithm as
RhinoConnection / get_rhino_connection in
src/rhino_mcp_server/src/rhinomcp/server.py and GrasshopperConnection /
get_grasshopper_connection in
src/grasshopper_mcp_server/src/grasshoppermcp/server.py.

Python text (str) is modelled as List Char (unicode scalar values, which is
exactly what a strict utf-8 decode can produce); raw bytes are List Nat.
The Python standard library pieces the code calls into, json.JSONDecoder
raw_decode / json.loads (CPython's C scanner semantics) and
bytes.decode with strict utf-8, are modelled explicitly below, since the
repository's behaviour on every claim runs through them.
-/

namespace RhinoMCP

/-! ## Character classes

jsonWsChar is the whitespace the CPython json scanner skips between tokens
(the regex [ \t\n\r]*).  pyWsChar is the full set of code points stripped by
Python str.rstrip (all characters where str.isspace() is true). -/

def jsonWsChar (c : Char) : Bool :=
  c = ' ' || c = '\t' || c = '\n' || c = '\r'

def pyWsCodes : List Nat :=
  [9, 10, 11, 12, 13, 28, 29, 30, 31, 32, 133, 160, 5760,
   8192, 8193, 8194, 8195, 8196, 8197, 8198, 8199, 8200, 8201, 8202,
   8232, 8233, 8239, 8287, 12288]

def pyWsChar (c : Char) : Bool := pyWsCodes.contains c.toNat

/-- Python str.rstrip(): drop trailing whitespace characters. -/
def pyRstrip (s : List Char) : List Char :=
  (s.reverse.dropWhile pyWsChar).reverse

/-- The completion heuristic of receive_full_response:
accumulated.rstrip().endswith(chr 125). -/
def gateHit (acc : List Char) : Bool :=
  (pyRstrip acc).getLast? == some '}'

/-- Code points of a Lean string (model of a Python str constant). -/
def strCodes (s : String) : List Nat := s.toList.map Char.toNat

/-! ## JSON values

Values as produced by json.loads.  Number tokens keep their source lexeme
(we never need Python's int/float arithmetic, only which texts parse and
whether two parses of the same text agree).  String contents are decoded
code points (List Nat rather than List Char because \uXXXX escapes can
produce lone surrogates, which are legal in a Python str). -/

inductive JVal : Type where
  | jnull : JVal
  | jbool : Bool → JVal
  | jnum : List Char → JVal
  | jstr : List Nat → JVal
  | jarr : List JVal → JVal
  | jobj : List (List Nat × JVal) → JVal

/-- dict(pairs).get(key): for duplicate keys the last occurrence wins. -/
def objGet (fields : List (List Nat × JVal)) (key : List Nat) : Option JVal :=
  match fields.reverse.find? (fun p => p.1 == key) with
  | some p => some p.2
  | none => none

/-! ## Number lexing (the NUMBER_RE regex of json/scanner.py):
(-?(?:0|[1-9]\d*))(\.\d+)?([eE][-+]?\d+)? -/

def isDigitCh (c : Char) : Bool := 48 ≤ c.toNat && c.toNat ≤ 57

def isDigit19 (c : Char) : Bool := 49 ≤ c.toNat && c.toNat ≤ 57

/-- Unsigned integer part: 0 or [1-9]digits*. -/
def lexUInt : List Char → Option (List Char × List Char)
  | [] => none
  | c :: r =>
    if c = '0' then some (['0'], r)
    else if isDigit19 c then some (c :: r.takeWhile isDigitCh, r.dropWhile isDigitCh)
    else none

/-- Integer part with optional leading minus sign. -/
def lexInt (s : List Char) : Option (List Char × List Char) :=
  match s with
  | [] => none
  | c :: r =>
    if c = '-' then
      match lexUInt r with
      | some (ds, rest) => some ('-' :: ds, rest)
      | none => none
    else lexUInt (c :: r)

/-- Optional fraction part: a dot followed by at least one digit. -/
def lexFrac (s : List Char) : List Char × List Char :=
  match s with
  | [] => ([], [])
  | c :: r =>
    if c = '.' then
      match r.takeWhile isDigitCh with
      | [] => ([], c :: r)
      | d :: ds => ('.' :: d :: ds, r.dropWhile isDigitCh)
    else ([], c :: r)

/-- Optional exponent part: [eE][-+]?digits+. -/
def lexExp (s : List Char) : List Char × List Char :=
  match s with
  | [] => ([], [])
  | e :: r =>
    if e = 'e' ∨ e = 'E' then
      match r with
      | [] => ([], e :: r)
      | c :: r2 =>
        if c = '+' ∨ c = '-' then
          match r2.takeWhile isDigitCh with
          | [] => ([], e :: r)
          | d :: ds => (e :: c :: d :: ds, r2.dropWhile isDigitCh)
        else
          match r.takeWhile isDigitCh with
          | [] => ([], e :: r)
          | d :: ds => (e :: d :: ds, r.dropWhile isDigitCh)
    else ([], e :: r)

/-- The whole number token, or none if NUMBER_RE does not match at the head. -/
def lexNumber (s : List Char) : Option (List Char × List Char) :=
  match lexInt s with
  | none => none
  | some (ip, r1) =>
    let fr := lexFrac r1
    let ex := lexExp fr.2
    some (ip ++ fr.1 ++ ex.1, ex.2)

/-- The unconsumed tails after which appending more text can lengthen the
number token NUMBER_RE matches: a bare dot or a bare exponent head.  After
any other nonempty tail the match is stable under extension. -/
def numTailExts : List (List Char) :=
  [['.'], ['e'], ['E'], ['e', '+'], ['e', '-'], ['E', '+'], ['E', '-']]

/-! ## String body scanning (c_scanstring with strict=True)

The leading quote has already been consumed; returns the decoded code
points and the text after the closing quote. -/

def hexVal (c : Char) : Option Nat :=
  let n := c.toNat
  if 48 ≤ n && n ≤ 57 then some (n - 48)
  else if 97 ≤ n && n ≤ 102 then some (n - 87)
  else if 65 ≤ n && n ≤ 70 then some (n - 55)
  else none

def hex4 : List Char → Option (Nat × List Char)
  | a :: b :: c :: d :: r =>
    match hexVal a, hexVal b, hexVal c, hexVal d with
    | some x, some y, some z, some w => some (((x * 16 + y) * 16 + z) * 16 + w, r)
    | _, _, _, _ => none
  | _ => none

/-- Single-character escapes (the BACKSLASH table of json/decoder.py). -/
def escCode (c : Char) : Option Nat :=
  if c = '"' then some 34
  else if c = '\\' then some 92
  else if c = '/' then some 47
  else if c = 'b' then some 8
  else if c = 'f' then some 12
  else if c = 'n' then some 10
  else if c = 'r' then some 13
  else if c = 't' then some 9
  else none

/-- After a \uXXXX escape with value u: when u is a high surrogate and a
second \uXXXX follows, read it; a low surrogate combines into one code
point, anything else leaves the lone surrogate and re-reads the second
escape later.  Invalid hex in the second escape is an error.  Returns the
emitted code point and the remaining text. -/
def escUniFollow (u : Nat) (r3 : List Char) : Option (Nat × List Char) :=
  if 0xD800 ≤ u && u ≤ 0xDBFF then
    match r3 with
    | '\\' :: 'u' :: r4 =>
      match hex4 r4 with
      | none => none
      | some (u2, r5) =>
        if 0xDC00 ≤ u2 && u2 ≤ 0xDFFF then
          some (0x10000 + (u - 0xD800) * 1024 + (u2 - 0xDC00), r5)
        else some (u, r3)
    | _ => some (u, r3)
  else some (u, r3)

def pStrRest (fuel : Nat) (s : List Char) : Option (List Nat × List Char) :=
  match fuel with
  | 0 => none
  | fuel + 1 =>
    match s with
    | [] => none
    | c :: r =>
      if c = '"' then some ([], r)
      else if c = '\\' then
        match r with
        | [] => none
        | e :: r2 =>
          if e = 'u' then
            match hex4 r2 with
            | none => none
            | some (u, r3) =>
              match escUniFollow u r3 with
              | none => none
              | some (code, r4) =>
                match pStrRest fuel r4 with
                | some (cs, rest) => some (code :: cs, rest)
                | none => none
          else
            match escCode e with
            | none => none
            | some n =>
              match pStrRest fuel r2 with
              | some (cs, rest) => some (n :: cs, rest)
              | none => none
      else if c.toNat < 0x20 then none
      else
        match pStrRest fuel r with
        | some (cs, rest) => some (c.toNat :: cs, rest)
        | none => none

/-! ## The value scanner (_scan_once, JSONObject, JSONArray)

One fuel-recursive function with a mode tag: mode val is _scan_once, mode
obj/members is JSONObject (split at its first nextchar test), mode
arr/elems is JSONArray.  Each branch tests the head character exactly as
the CPython scanner compares string[idx] / string[idx:idx+k]. -/

def skipWs (s : List Char) : List Char := s.dropWhile jsonWsChar

inductive PMode : Type where
  | val | obj | members | arr | elems
  deriving DecidableEq, Repr

/-- pairs.append for the recursive members parse: prepend a parsed pair onto
a members result (which is always a jobj). -/
def consField (kv : List Nat × JVal) :
    Option (JVal × List Char) → Option (JVal × List Char)
  | some (JVal.jobj ps, r) => some (JVal.jobj (kv :: ps), r)
  | _ => none

/-- values.append for the recursive elements parse. -/
def consElem (v : JVal) : Option (JVal × List Char) → Option (JVal × List Char)
  | some (JVal.jarr vs, r) => some (JVal.jarr (v :: vs), r)
  | _ => none

def pRun (fuel : Nat) (m : PMode) (s : List Char) : Option (JVal × List Char) :=
  match fuel with
  | 0 => none
  | f + 1 =>
    match m with
    | .val =>
      match s with
      | [] => none
      | c :: r =>
        if c = '"' then
          match pStrRest f r with
          | some (cs, rest) => some (JVal.jstr cs, rest)
          | none => none
        else if c = '{' then pRun f .obj (skipWs r)
        else if c = '[' then pRun f .arr (skipWs r)
        else if c = 'n' ∧ r.take 3 = ['u', 'l', 'l'] then some (JVal.jnull, r.drop 3)
        else if c = 't' ∧ r.take 3 = ['r', 'u', 'e'] then some (JVal.jbool true, r.drop 3)
        else if c = 'f' ∧ r.take 4 = ['a', 'l', 's', 'e'] then
          some (JVal.jbool false, r.drop 4)
        else
          match lexNumber (c :: r) with
          | some (lx, rest) => some (JVal.jnum lx, rest)
          | none =>
            if c = 'N' ∧ r.take 2 = ['a', 'N'] then
              some (JVal.jnum ['N', 'a', 'N'], r.drop 2)
            else if c = 'I' ∧ r.take 7 = ['n', 'f', 'i', 'n', 'i', 't', 'y'] then
              some (JVal.jnum "Infinity".toList, r.drop 7)
            else if c = '-' ∧ r.take 8 = ['I', 'n', 'f', 'i', 'n', 'i', 't', 'y'] then
              some (JVal.jnum "-Infinity".toList, r.drop 8)
            else none
    | .obj =>
      match s with
      | [] => none
      | c :: r => if c = '}' then some (JVal.jobj [], r) else pRun f .members (c :: r)
    | .members =>
      match s with
      | [] => none
      | c :: r =>
        if c = '"' then
          match pStrRest f r with
          | none => none
          | some (key, r1) =>
            match skipWs r1 with
            | [] => none
            | c2 :: r2 =>
              if c2 = ':' then
                match pRun f .val (skipWs r2) with
                | none => none
                | some (v, r3) =>
                  match skipWs r3 with
                  | [] => none
                  | c3 :: r4 =>
                    if c3 = '}' then some (JVal.jobj [(key, v)], r4)
                    else if c3 = ',' then consField (key, v) (pRun f .members (skipWs r4))
                    else none
              else none
        else none
    | .arr =>
      match s with
      | [] => none
      | c :: r => if c = ']' then some (JVal.jarr [], r) else pRun f .elems (c :: r)
    | .elems =>
      match pRun f .val s with
      | none => none
      | some (v, r) =>
        match skipWs r with
        | [] => none
        | c2 :: r2 =>
          if c2 = ']' then some (JVal.jarr [v], r2)
          else if c2 = ',' then consElem v (pRun f .elems (skipWs r2))
          else none

/-- _scan_once. -/
def pVal (fuel : Nat) (s : List Char) : Option (JVal × List Char) :=
  pRun fuel .val s

/-- What a successful scan consumes, per mode: the unconsumed tail is a
literal suffix, object scans end at a closing brace, array scans at a
closing bracket, and a value scan either starts at an opening brace or ends
with a character that is not whitespace and not a closing brace. -/
def consumedSpec : PMode → List Char → List Char → Prop
  | .val, s, rem =>
    (∃ q, s = q ++ rem) ∧
      ((∃ r', s = '{' :: r') ∨
        ∃ q d, s = q ++ d :: rem ∧ pyWsChar d = false ∧ d ≠ '}')
  | .obj, s, rem => ∃ q, s = q ++ '}' :: rem
  | .members, s, rem => ∃ q, s = q ++ '}' :: rem
  | .arr, s, rem => ∃ q, s = q ++ ']' :: rem
  | .elems, s, rem => ∃ q, s = q ++ ']' :: rem

/-- Enough fuel for any input of this length (each unit of fuel either
consumes a character or moves to a strictly smaller subproblem; four per
character is a generous bound). -/
def fuelFor (s : List Char) : Nat := 4 * s.length + 8

/-- json.JSONDecoder().raw_decode(s): parse the first JSON document starting
at index 0 (no leading-whitespace tolerance), returning it and the
unconsumed tail. -/
def rawDecode (s : List Char) : Option (JVal × List Char) :=
  pVal (fuelFor s) s

/-- json.loads(s): skip leading whitespace, parse one document, require that
only whitespace follows. -/
def loads (s : List Char) : Option JVal :=
  match rawDecode (skipWs s) with
  | some (v, rem) => if skipWs rem = [] then some v else none
  | none => none

/-! ## UTF-8 (bytes.decode with errors=strict, and encoding)

receive_full_response decodes every recv chunk independently with
chunk.decode, so the byte-level behaviour matters: a chunk ending inside a
multi-byte sequence raises UnicodeDecodeError.  The strict decoder rejects
overlong forms, surrogates and code points above 0x10FFFF. -/

def utf8EncodeChar (c : Char) : List Nat :=
  let n := c.toNat
  if n < 0x80 then [n]
  else if n < 0x800 then [0xC0 + n / 64, 0x80 + n % 64]
  else if n < 0x10000 then
    [0xE0 + n / 4096, 0x80 + n / 64 % 64, 0x80 + n % 64]
  else
    [0xF0 + n / 0x40000, 0x80 + n / 4096 % 64, 0x80 + n / 64 % 64, 0x80 + n % 64]

def utf8Encode (s : List Char) : List Nat := (s.map utf8EncodeChar).flatten

def contByte (b : Nat) : Bool := 0x80 ≤ b && b ≤ 0xBF

def utf8DecodeAux : Nat → List Nat → Option (List Char)
  | _, [] => some []
  | 0, _ :: _ => none
  | f + 1, b :: r =>
    if b < 0x80 then
      match utf8DecodeAux f r with
      | some cs => some (Char.ofNat b :: cs)
      | none => none
    else if 0xC2 ≤ b && b ≤ 0xDF then
      match r with
      | b2 :: r2 =>
        if contByte b2 then
          match utf8DecodeAux f r2 with
          | some cs => some (Char.ofNat ((b - 0xC0) * 64 + (b2 - 0x80)) :: cs)
          | none => none
        else none
      | _ => none
    else if 0xE0 ≤ b && b ≤ 0xEF then
      match r with
      | b2 :: b3 :: r3 =>
        let lo2 : Nat := if b = 0xE0 then 0xA0 else 0x80
        let hi2 : Nat := if b = 0xED then 0x9F else 0xBF
        if (lo2 ≤ b2 && b2 ≤ hi2) && contByte b3 then
          match utf8DecodeAux f r3 with
          | some cs =>
            some (Char.ofNat ((b - 0xE0) * 4096 + (b2 - 0x80) * 64 + (b3 - 0x80)) :: cs)
          | none => none
        else none
      | _ => none
    else if 0xF0 ≤ b && b ≤ 0xF4 then
      match r with
      | b2 :: b3 :: b4 :: r4 =>
        let lo2 : Nat := if b = 0xF0 then 0x90 else 0x80
        let hi2 : Nat := if b = 0xF4 then 0x8F else 0xBF
        if ((lo2 ≤ b2 && b2 ≤ hi2) && contByte b3) && contByte b4 then
          match utf8DecodeAux f r4 with
          | some cs =>
            some (Char.ofNat
              ((b - 0xF0) * 0x40000 + (b2 - 0x80) * 4096 + (b3 - 0x80) * 64 + (b4 - 0x80)) :: cs)
          | none => none
        else none
      | _ => none
    else none

def utf8Decode (bs : List Nat) : Option (List Char) := utf8DecodeAux bs.length bs

/-! ## receive_full_response

One request/response exchange is modelled by the list of byte chunks the
successive recv calls deliver, followed by how the stream ends: the peer
closes (recv returns an empty bytes object), the read deadline expires
(socket.timeout, caught and turned into a break), or the connection is
reset (ConnectionError, re-raised).  Each delivered chunk is nonempty in any
real execution, since an empty recv result means exactly that the peer
closed. -/

inductive Ending : Type where
  | closed | timedOut | reset
  deriving DecidableEq, Repr

/-- Outcome of receive_full_response.  The ok payload keeps the returned
buffer and (as instrumentation, unused by send_command) whether it was
returned from inside the loop by the completion heuristic, or by the final
decode after close/timeout. -/
inductive RecvRes : Type where
  | ok (buf : List Char) (viaLoop : Bool)
  | closedNoData
  | incompleteJson
  | noData
  | connReset
  | badUtf8

/-- The decode-what-we-have step after the loop breaks. -/
def finalDecode (acc : List Char) : RecvRes :=
  if acc.isEmpty then .noData
  else
    match rawDecode acc with
    | some _ => .ok acc false
    | none => .incompleteJson

def recvGo (acc : List Char) : List (List Nat) → Ending → RecvRes
  | [], e =>
    match e with
    | .closed => if acc.isEmpty then .closedNoData else finalDecode acc
    | .timedOut => finalDecode acc
    | .reset => .connReset
  | ch :: rest, e =>
    match utf8Decode ch with
    | none => .badUtf8
    | some cs =>
      let acc2 := acc ++ cs
      if gateHit acc2 then
        match rawDecode acc2 with
        | some _ => .ok acc2 true
        | none => recvGo acc2 rest e
      else recvGo acc2 rest e

def receiveFullResponse (chunks : List (List Nat)) (e : Ending) : RecvRes :=
  recvGo [] chunks e

/-- Instrumentation for the completion heuristic: the successive values of
accumulated at which the loop body calls decoder.raw_decode, mirroring the
recursion of recvGo exactly. -/
def loopAttempts (acc : List Char) : List (List Nat) → List (List Char)
  | [] => []
  | ch :: rest =>
    match utf8Decode ch with
    | none => []
    | some cs =>
      let acc2 := acc ++ cs
      if gateHit acc2 then
        match rawDecode acc2 with
        | some _ => [acc2]
        | none => acc2 :: loopAttempts acc2 rest
      else loopAttempts acc2 rest

/-! ## send_command

The sendall call can itself raise (timeout / connection fault); otherwise
the response is received as above.  The except-chain of send_command is:
socket.timeout, then (ConnectionError, BrokenPipeError,
ConnectionResetError), then json.JSONDecodeError, then the catch-all
except Exception.  In particular the Exception raised for a
status=error response inside the try block is caught by that final
catch-all, which nulls the socket and re-raises a wrapped message. -/

inductive NetFault : Type where
  | sendTimeout | sendReset
  deriving DecidableEq, Repr

inductive Wire : Type where
  | sendFail (k : NetFault)
  | deliver (chunks : List (List Nat)) (e : Ending)

/-- The plain Exceptions that can reach the catch-all handler, each wrapped
into a message starting with the literal prefix of the handler. -/
inductive CommInner : Type where
  | remoteErr (msg : Option JVal)
  | closedNoData
  | incompleteJson
  | noData
  | badUtf8
  | attrNonObject

inductive SCOutcome : Type where
  | result (v : JVal)
  | notConnected
  | timeoutErr
  | connLost
  | invalidResponse
  | commErr (i : CommInner)

def SCOutcome.isResult : SCOutcome → Bool
  | .result _ => true
  | _ => false

/-- Model of the response.get("status") == "error" test: true exactly when
the status value is the string "error". -/
def statusIsError (fields : List (List Nat × JVal)) : Bool :=
  match objGet fields (strCodes "status") with
  | some (JVal.jstr s) => s == strCodes "error"
  | _ => false

/-- Parsing and dispatching of a successfully received buffer. -/
inductive ParseStep : Type where
  | success (v : JVal)
  | remoteRaise (msg : Option JVal)
  | notDict
  | decodeFail

def processResponse (buf : List Char) : ParseStep :=
  match loads buf with
  | none => .decodeFail
  | some (JVal.jobj fields) =>
    if statusIsError fields then .remoteRaise (objGet fields (strCodes "message"))
    else .success ((objGet fields (strCodes "result")).getD (JVal.jobj []))
  | some _ => .notDict

/-- send_command, returning the outcome together with whether self.sock is
still set afterwards.  sock0: whether a socket handle is present on entry;
peerUp: whether a connect() attempt would succeed. -/
def sendCommand (sock0 : Bool) (peerUp : Bool) (w : Wire) : SCOutcome × Bool :=
  if !sock0 && !peerUp then (.notConnected, false)
  else
    match w with
    | .sendFail .sendTimeout => (.timeoutErr, false)
    | .sendFail .sendReset => (.connLost, false)
    | .deliver chunks e =>
      match receiveFullResponse chunks e with
      | .ok buf _ =>
        match processResponse buf with
        | .success v => (.result v, true)
        | .decodeFail => (.invalidResponse, true)
        | .remoteRaise m => (.commErr (.remoteErr m), false)
        | .notDict => (.commErr .attrNonObject, false)
      | .closedNoData => (.commErr .closedNoData, false)
      | .incompleteJson => (.commErr .incompleteJson, false)
      | .noData => (.commErr .noData, false)
      | .connReset => (.connLost, false)
      | .badUtf8 => (.commErr .badUtf8, false)

/-- The Python message text (as code points) of each raised failure, where
the model determines it.  str() renderings of foreign exception objects
(the suffixes of the connLost / invalidResponse messages, the text of a
UnicodeDecodeError, and Exception(x) for a non-string x) are left
undetermined. -/
def commInnerMsg : CommInner → Option (List Nat)
  | .remoteErr none => some (strCodes "Unknown error from plugin")
  | .remoteErr (some (JVal.jstr s)) => some s
  | .remoteErr (some _) => none
  | .closedNoData => some (strCodes "Connection closed before receiving any data")
  | .incompleteJson => some (strCodes "Incomplete JSON response received")
  | .noData => some (strCodes "No data received")
  | .badUtf8 => none
  | .attrNonObject => none

def msgOf : SCOutcome → Option (List Nat)
  | .result _ => none
  | .notConnected => some (strCodes "Not connected to plugin")
  | .timeoutErr =>
    some (strCodes "Timeout waiting for plugin response - try simplifying your request")
  | .connLost => none
  | .invalidResponse => none
  | .commErr i =>
    (commInnerMsg i).map (fun m => strCodes "Communication error with plugin: " ++ m)

/-! ## connect / disconnect -/

/-- PluginConnection.connect: no-op when a handle is present; otherwise a
fresh socket connect that succeeds exactly when the peer is listening.
Returns (new handle state, returned bool). -/
def connect (sock : Bool) (peerUp : Bool) : Bool × Bool :=
  if sock then (true, true)
  else if peerUp then (true, true)
  else (false, false)

/-- PluginConnection.disconnect: if a handle is present, close it inside
try/except (suppressing a close-time error) and clear the handle in the
finally block; otherwise do nothing.  Returns (handle afterwards, whether
the call raised). -/
def disconnect (sock : Option Unit) (closeRaises : Bool) : Option Unit × Bool :=
  match sock with
  | none => (none, false)
  | some _ =>
    match closeRaises with
    | true => (none, false)
    | false => (none, false)

/-! ## The connection manager (create_connection_manager / get_connection)

Instrumented with an instance counter so that identity of the cached object
and the number of constructions are visible. -/

structure MgrState : Type where
  slot : Option Nat
  nextId : Nat
  constructed : Nat
  connectCalls : Nat
  deriving DecidableEq, Repr

def MgrState.init : MgrState := ⟨none, 0, 0, 0⟩

inductive GetRes : Type where
  | got (id : Nat)
  | raisedCouldNotConnect
  deriving DecidableEq, Repr

/-- The message of the raise on connect failure:
"Could not connect to plugin. Make sure it is running." with a genuine
apostrophe (code 39) between "it" and "s". -/
def couldNotConnectMsg : List Nat :=
  strCodes "Could not connect to plugin. Make sure it" ++ [39] ++ strCodes "s running."

/-- The body of get_connection (everything under the lock). -/
def getConnection (peerUp : Bool) (st : MgrState) : MgrState × GetRes :=
  match st.slot with
  | some id => (st, .got id)
  | none =>
    let id := st.nextId
    let st1 : MgrState :=
      ⟨none, id + 1, st.constructed + 1, st.connectCalls + 1⟩
    if peerUp then (⟨some id, st1.nextId, st1.constructed, st1.connectCalls⟩, .got id)
    else (st1, .raisedCouldNotConnect)

/-- The body of cleanup_connection (everything under the lock). -/
def cleanupConnection (st : MgrState) : MgrState :=
  match st.slot with
  | some _ => ⟨none, st.nextId, st.constructed, st.connectCalls⟩
  | none => st

/-! ## Two threads racing through get_connection

threading.Lock gives mutual exclusion: a thread's call is acquire, then the
construct-or-return body, then release, and while one thread is between
acquire and release the other cannot acquire.  Configurations record the
lock owner, the manager state and each thread's phase; a scheduler is an
arbitrary interleaving of the two threads' steps, where a step of a thread
that is blocked on the lock (or already finished) changes nothing. -/

inductive TPhase : Type where
  | idle
  | inCS
  | bodyDone (r : GetRes)
  | finished (r : GetRes)
  deriving DecidableEq, Repr

structure TwoCfg : Type where
  lockHeld : Option Bool
  mgr : MgrState
  phA : TPhase
  phB : TPhase
  deriving DecidableEq, Repr

def TwoCfg.init : TwoCfg := ⟨none, MgrState.init, .idle, .idle⟩

def stepA (peerUp : Bool) (c : TwoCfg) : TwoCfg :=
  match c.phA with
  | .idle =>
    match c.lockHeld with
    | some _ => c
    | none => { c with lockHeld := some false, phA := .inCS }
  | .inCS =>
    let r := getConnection peerUp c.mgr
    { c with mgr := r.1, phA := .bodyDone r.2 }
  | .bodyDone r => { c with lockHeld := none, phA := .finished r }
  | .finished _ => c

def stepB (peerUp : Bool) (c : TwoCfg) : TwoCfg :=
  match c.phB with
  | .idle =>
    match c.lockHeld with
    | some _ => c
    | none => { c with lockHeld := some true, phB := .inCS }
  | .inCS =>
    let r := getConnection peerUp c.mgr
    { c with mgr := r.1, phB := .bodyDone r.2 }
  | .bodyDone r => { c with lockHeld := none, phB := .finished r }
  | .finished _ => c

def runSched (peerUp : Bool) (sched : List Bool) : TwoCfg :=
  sched.foldl (fun c b => if b then stepB peerUp c else stepA peerUp c) TwoCfg.init

/-- All configurations reachable from TwoCfg.init when the peer is up. -/
def reachableTwo : List TwoCfg :=
  [⟨none, ⟨none, 0, 0, 0⟩, .idle, .idle⟩,
   ⟨some false, ⟨none, 0, 0, 0⟩, .inCS, .idle⟩,
   ⟨some true, ⟨none, 0, 0, 0⟩, .idle, .inCS⟩,
   ⟨some false, ⟨some 0, 1, 1, 1⟩, .bodyDone (.got 0), .idle⟩,
   ⟨none, ⟨some 0, 1, 1, 1⟩, .finished (.got 0), .idle⟩,
   ⟨some true, ⟨some 0, 1, 1, 1⟩, .finished (.got 0), .inCS⟩,
   ⟨some true, ⟨some 0, 1, 1, 1⟩, .finished (.got 0), .bodyDone (.got 0)⟩,
   ⟨none, ⟨some 0, 1, 1, 1⟩, .finished (.got 0), .finished (.got 0)⟩,
   ⟨some true, ⟨some 0, 1, 1, 1⟩, .idle, .bodyDone (.got 0)⟩,
   ⟨none, ⟨some 0, 1, 1, 1⟩, .idle, .finished (.got 0)⟩,
   ⟨some false, ⟨some 0, 1, 1, 1⟩, .inCS, .finished (.got 0)⟩,
   ⟨some false, ⟨some 0, 1, 1, 1⟩, .bodyDone (.got 0), .finished (.got 0)⟩]

/-! ## Lemmas: utf-8 roundtrip -/

theorem utf8EncodeChar_length_pos (c : Char) : 0 < (utf8EncodeChar c).length := by
  simp only [utf8EncodeChar]
  split
  · simp
  · split
    · simp
    · split
      · simp
      · simp

theorem utf8DecodeAux_encodeChar (f : Nat) (c : Char) (bs : List Nat) :
    utf8DecodeAux (f + 1) (utf8EncodeChar c ++ bs) =
      (utf8DecodeAux f bs).map (fun cs => c :: cs) := by
  have hv : c.toNat < 0xD800 ∨ (0xE000 ≤ c.toNat ∧ c.toNat < 0x110000) := c.valid
  rcases hv with h1 | ⟨h2, h3⟩
  · -- n < 0xD800
    by_cases ha : c.toNat < 0x80
    · simp only [utf8EncodeChar, if_pos ha, List.cons_append, List.nil_append,
        utf8DecodeAux, ha, if_pos]
      rw [Char.ofNat_toNat]
      cases utf8DecodeAux f bs <;> simp
    · by_cases hb : c.toNat < 0x800
      · simp only [utf8EncodeChar, if_neg ha, if_pos hb, List.cons_append, List.nil_append,
          utf8DecodeAux]
        have hc1 : ¬ (0xC0 + c.toNat / 64 < 0x80) := by omega
        have hc2 : (0xC2 ≤ 0xC0 + c.toNat / 64 && 0xC0 + c.toNat / 64 ≤ 0xDF) = true := by
          simp only [Bool.and_eq_true, decide_eq_true_eq]
          omega
        have hc3 : contByte (0x80 + c.toNat % 64) = true := by
          simp only [contByte, Bool.and_eq_true, decide_eq_true_eq]
          omega
        simp only [if_neg hc1, hc2, if_pos, hc3, if_true]
        have : 0xC0 + c.toNat / 64 - 0xC0 = c.toNat / 64 := by omega
        rw [this]
        have : c.toNat / 64 * 64 + (0x80 + c.toNat % 64 - 0x80) = c.toNat := by omega
        rw [this, Char.ofNat_toNat]
        cases utf8DecodeAux f bs <;> simp
      · have hcc : c.toNat < 0x10000 := by omega
        simp only [utf8EncodeChar, if_neg ha, if_neg hb, if_pos hcc, List.cons_append,
          List.nil_append, utf8DecodeAux]
        have hc1 : ¬ (0xE0 + c.toNat / 4096 < 0x80) := by omega
        have hc2 : ¬ ((0xC2 ≤ 0xE0 + c.toNat / 4096 && 0xE0 + c.toNat / 4096 ≤ 0xDF) = true) := by
          simp only [Bool.and_eq_true, decide_eq_true_eq]
          omega
        have hc3 : (0xE0 ≤ 0xE0 + c.toNat / 4096 && 0xE0 + c.toNat / 4096 ≤ 0xEF) = true := by
          simp only [Bool.and_eq_true, decide_eq_true_eq]
          omega
        simp only [if_neg hc1, hc2, if_false, hc3, if_true]
        have hcond :
            (((if 0xE0 + c.toNat / 4096 = 0xE0 then (0xA0 : Nat) else 0x80) ≤ 0x80 + c.toNat / 64 % 64 &&
              0x80 + c.toNat / 64 % 64 ≤ (if 0xE0 + c.toNat / 4096 = 0xED then (0x9F : Nat) else 0xBF)) &&
              contByte (0x80 + c.toNat % 64)) = true := by
          simp only [contByte, Bool.and_eq_true, decide_eq_true_eq]
          refine ⟨⟨?_, ?_⟩, by omega, by omega⟩
          · split
            · omega
            · omega
          · split
            · omega
            · omega
        simp only [hcond, if_true]
        have : 0xE0 + c.toNat / 4096 - 0xE0 = c.toNat / 4096 := by omega
        rw [this]
        have : c.toNat / 4096 * 4096 + (0x80 + c.toNat / 64 % 64 - 0x80) * 64 +
            (0x80 + c.toNat % 64 - 0x80) = c.toNat := by omega
        rw [this, Char.ofNat_toNat]
        cases utf8DecodeAux f bs <;> simp
  · -- 0xE000 ≤ n < 0x110000
    by_cases hcc : c.toNat < 0x10000
    · have ha : ¬ (c.toNat < 0x80) := by omega
      have hb : ¬ (c.toNat < 0x800) := by omega
      simp only [utf8EncodeChar, if_neg ha, if_neg hb, if_pos hcc, List.cons_append,
        List.nil_append, utf8DecodeAux]
      have hc1 : ¬ (0xE0 + c.toNat / 4096 < 0x80) := by omega
      have hc2 : ¬ ((0xC2 ≤ 0xE0 + c.toNat / 4096 && 0xE0 + c.toNat / 4096 ≤ 0xDF) = true) := by
        simp only [Bool.and_eq_true, decide_eq_true_eq]
        omega
      have hc3 : (0xE0 ≤ 0xE0 + c.toNat / 4096 && 0xE0 + c.toNat / 4096 ≤ 0xEF) = true := by
        simp only [Bool.and_eq_true, decide_eq_true_eq]
        omega
      simp only [if_neg hc1, hc2, if_false, hc3, if_true]
      have hcond :
          (((if 0xE0 + c.toNat / 4096 = 0xE0 then (0xA0 : Nat) else 0x80) ≤ 0x80 + c.toNat / 64 % 64 &&
            0x80 + c.toNat / 64 % 64 ≤ (if 0xE0 + c.toNat / 4096 = 0xED then (0x9F : Nat) else 0xBF)) &&
            contByte (0x80 + c.toNat % 64)) = true := by
        simp only [contByte, Bool.and_eq_true, decide_eq_true_eq]
        refine ⟨⟨?_, ?_⟩, by omega, by omega⟩
        · split
          · omega
          · omega
        · split
          · omega
          · omega
      simp only [hcond, if_true]
      have : 0xE0 + c.toNat / 4096 - 0xE0 = c.toNat / 4096 := by omega
      rw [this]
      have : c.toNat / 4096 * 4096 + (0x80 + c.toNat / 64 % 64 - 0x80) * 64 +
          (0x80 + c.toNat % 64 - 0x80) = c.toNat := by omega
      rw [this, Char.ofNat_toNat]
      cases utf8DecodeAux f bs <;> simp
    · have ha : ¬ (c.toNat < 0x80) := by omega
      have hb : ¬ (c.toNat < 0x800) := by omega
      simp only [utf8EncodeChar, if_neg ha, if_neg hb, if_neg hcc, List.cons_append,
        List.nil_append, utf8DecodeAux]
      have hc1 : ¬ (0xF0 + c.toNat / 0x40000 < 0x80) := by omega
      have hc2 : ¬ ((0xC2 ≤ 0xF0 + c.toNat / 0x40000 && 0xF0 + c.toNat / 0x40000 ≤ 0xDF) = true) := by
        simp only [Bool.and_eq_true, decide_eq_true_eq]
        omega
      have hc3 : ¬ ((0xE0 ≤ 0xF0 + c.toNat / 0x40000 && 0xF0 + c.toNat / 0x40000 ≤ 0xEF) = true) := by
        simp only [Bool.and_eq_true, decide_eq_true_eq]
        omega
      have hc4 : (0xF0 ≤ 0xF0 + c.toNat / 0x40000 && 0xF0 + c.toNat / 0x40000 ≤ 0xF4) = true := by
        simp only [Bool.and_eq_true, decide_eq_true_eq]
        omega
      simp only [if_neg hc1, hc2, if_false, hc3, hc4, if_true]
      have hcond :
          ((((if 0xF0 + c.toNat / 0x40000 = 0xF0 then (0x90 : Nat) else 0x80) ≤
              0x80 + c.toNat / 4096 % 64 &&
            0x80 + c.toNat / 4096 % 64 ≤
              (if 0xF0 + c.toNat / 0x40000 = 0xF4 then (0x8F : Nat) else 0xBF)) &&
            contByte (0x80 + c.toNat / 64 % 64)) && contByte (0x80 + c.toNat % 64)) = true := by
        simp only [contByte, Bool.and_eq_true, decide_eq_true_eq]
        refine ⟨⟨⟨?_, ?_⟩, by omega, by omega⟩, by omega, by omega⟩
        · split
          · omega
          · omega
        · split
          · omega
          · omega
      simp only [hcond, if_true]
      have : 0xF0 + c.toNat / 0x40000 - 0xF0 = c.toNat / 0x40000 := by omega
      rw [this]
      have : c.toNat / 0x40000 * 0x40000 + (0x80 + c.toNat / 4096 % 64 - 0x80) * 4096 +
          (0x80 + c.toNat / 64 % 64 - 0x80) * 64 + (0x80 + c.toNat % 64 - 0x80) = c.toNat := by
        omega
      rw [this, Char.ofNat_toNat]
      cases utf8DecodeAux f bs <;> simp

theorem utf8DecodeAux_encode (s : List Char) (f : Nat) (h : s.length ≤ f) :
    utf8DecodeAux f (utf8Encode s) = some s := by
  induction s generalizing f with
  | nil =>
    cases f <;> simp [utf8Encode, utf8DecodeAux]
  | cons c cs ih =>
    cases f with
    | zero => simp at h
    | succ f =>
      have : utf8Encode (c :: cs) = utf8EncodeChar c ++ utf8Encode cs := by
        simp [utf8Encode]
      rw [this, utf8DecodeAux_encodeChar, ih f (by simpa using h)]
      rfl

theorem length_le_utf8Encode_length (s : List Char) : s.length ≤ (utf8Encode s).length := by
  induction s with
  | nil => simp [utf8Encode]
  | cons c cs ih =>
    have : utf8Encode (c :: cs) = utf8EncodeChar c ++ utf8Encode cs := by simp [utf8Encode]
    rw [this]
    simp only [List.length_append, List.length_cons]
    have := utf8EncodeChar_length_pos c
    omega

/-- Strict utf-8 decoding inverts encoding: delivering the bytes of a text
reproduces exactly that text. -/
theorem utf8Decode_encode (s : List Char) : utf8Decode (utf8Encode s) = some s :=
  utf8DecodeAux_encode s _ (length_le_utf8Encode_length s)

/-! ## Lemmas: list scanning stability -/

/-- When takeWhile stops inside l (something of l survives dropWhile), both
takeWhile and dropWhile ignore an appended tail. -/
theorem takeWhile_append_stable (p : Char → Bool) :
    ∀ (l t : List Char), l.dropWhile p ≠ [] →
      (l ++ t).takeWhile p = l.takeWhile p ∧
      (l ++ t).dropWhile p = l.dropWhile p ++ t := by
  intro l
  induction l with
  | nil => intro t h; simp [List.dropWhile] at h
  | cons c r ih =>
    intro t h
    by_cases hc : p c
    · rw [List.dropWhile_cons_of_pos hc] at h
      rcases ih t h with ⟨h1, h2⟩
      simp [List.takeWhile, List.dropWhile, hc, h1, h2]
    · simp [List.takeWhile_cons, List.dropWhile_cons, hc]

theorem skipWs_append_stable (l t : List Char) (h : skipWs l ≠ []) :
    skipWs (l ++ t) = skipWs l ++ t :=
  (takeWhile_append_stable jsonWsChar l t h).2

/-- A list splits at its whitespace head. -/
theorem skipWs_decomposition (l : List Char) :
    l = l.takeWhile jsonWsChar ++ skipWs l := by
  simp [skipWs]

theorem skipWs_eq_nil_all_ws (l : List Char) (h : skipWs l = []) :
    ∀ c ∈ l, jsonWsChar c = true := by
  intro c hc
  have := List.dropWhile_eq_nil_iff.mp h
  exact this c hc

theorem jsonWs_imp_pyWs (c : Char) (h : jsonWsChar c = true) : pyWsChar c = true := by
  have hc4 : ((c = ' ' ∨ c = '\t') ∨ c = '\n') ∨ c = '\r' := by
    simpa [jsonWsChar] using h
  rcases hc4 with ((rfl | rfl) | rfl) | rfl <;> rfl

/-- hex4 consumes exactly four characters. -/
theorem hex4_consumed (s : List Char) (u : Nat) (r : List Char)
    (h : hex4 s = some (u, r)) : ∃ a b c d, s = a :: b :: c :: d :: r := by
  match s with
  | [] => simp [hex4] at h
  | [a] => simp [hex4] at h
  | [a, b] => simp [hex4] at h
  | [a, b, c] => simp [hex4] at h
  | a :: b :: c :: d :: r' =>
    refine ⟨a, b, c, d, ?_⟩
    simp only [hex4] at h
    rcases hva : hexVal a with _ | va <;> rw [hva] at h <;>
      rcases hvb : hexVal b with _ | vb <;> rw [hvb] at h <;>
      rcases hvc : hexVal c with _ | vc <;> rw [hvc] at h <;>
      rcases hvd : hexVal d with _ | vd <;> rw [hvd] at h <;>
      simp_all

/-- hex4 ignores an appended tail once it succeeds. -/
theorem hex4_append (s : List Char) (u : Nat) (r : List Char) (t : List Char)
    (h : hex4 s = some (u, r)) : hex4 (s ++ t) = some (u, r ++ t) := by
  obtain ⟨a, b, c, d, rfl⟩ := hex4_consumed s u r h
  simp only [hex4, List.cons_append] at h ⊢
  rcases hva : hexVal a with _ | va <;>
    rcases hvb : hexVal b with _ | vb <;>
    rcases hvc : hexVal c with _ | vc <;>
    rcases hvd : hexVal d with _ | vd <;>
    simp_all

/-! ## Lemmas: inverting the result-consing helpers -/

theorem consField_some (kv : List Nat × JVal) (o : Option (JVal × List Char))
    (res : JVal × List Char) (h : consField kv o = some res) :
    ∃ ps r, o = some (JVal.jobj ps, r) ∧ res = (JVal.jobj (kv :: ps), r) := by
  match o with
  | none => simp [consField] at h
  | some (JVal.jnull, r) => simp [consField] at h
  | some (JVal.jbool b, r) => simp [consField] at h
  | some (JVal.jnum l, r) => simp [consField] at h
  | some (JVal.jstr cs, r) => simp [consField] at h
  | some (JVal.jarr vs, r) => simp [consField] at h
  | some (JVal.jobj ps, r) =>
    refine ⟨ps, r, rfl, ?_⟩
    simpa [consField] using h.symm

theorem consElem_some (v : JVal) (o : Option (JVal × List Char))
    (res : JVal × List Char) (h : consElem v o = some res) :
    ∃ vs r, o = some (JVal.jarr vs, r) ∧ res = (JVal.jarr (v :: vs), r) := by
  match o with
  | none => simp [consElem] at h
  | some (JVal.jnull, r) => simp [consElem] at h
  | some (JVal.jbool b, r) => simp [consElem] at h
  | some (JVal.jnum l, r) => simp [consElem] at h
  | some (JVal.jstr cs, r) => simp [consElem] at h
  | some (JVal.jobj ps, r) => simp [consElem] at h
  | some (JVal.jarr vs, r) =>
    refine ⟨vs, r, rfl, ?_⟩
    simpa [consElem] using h.symm

/-! ## Lemmas: fuel monotonicity (success is stable under more fuel) -/

theorem pStrRest_mono :
    ∀ (f : Nat) (s : List Char) (r : List Nat × List Char),
      pStrRest f s = some r → pStrRest (f + 1) s = some r := by
  intro f s
  induction f, s using pStrRest.induct <;> intro res h <;>
    rw [pStrRest.eq_def] at h ⊢ <;> simp_all

theorem pRun_mono :
    ∀ (f : Nat) (m : PMode) (s : List Char) (r : JVal × List Char),
      pRun f m s = some r → pRun (f + 1) m s = some r := by
  intro f m s
  induction f, m, s using pRun.induct <;> intro res h <;>
    rw [pRun.eq_def] at h ⊢ <;> (try simp_all [pStrRest_mono]) <;>
    (rename_i ih
     first
       | exact ih _ _ rfl
       | (obtain ⟨ps, r5, hx, rfl⟩ := consField_some _ _ _ h
          rw [ih _ _ hx]
          rfl)
       | (obtain ⟨vs, r3, hx, rfl⟩ := consElem_some _ _ _ h
          rw [ih _ _ hx]
          rfl))

theorem pRun_mono_le (f g : Nat) (m : PMode) (s : List Char) (r : JVal × List Char)
    (hle : f ≤ g) (h : pRun f m s = some r) : pRun g m s = some r := by
  induction g with
  | zero =>
    have : f = 0 := by omega
    subst this
    exact h
  | succ g ih =>
    by_cases hf : f = g + 1
    · subst hf
      exact h
    · exact pRun_mono g m s r (ih (by omega))

/-! ## Lemmas: what a successful scan consumes -/

theorem isDigit19_imp_isDigitCh (c : Char) (h : isDigit19 c = true) :
    isDigitCh c = true := by
  simp only [isDigit19, Bool.and_eq_true, decide_eq_true_eq] at h
  simp only [isDigitCh, Bool.and_eq_true, decide_eq_true_eq]
  omega

theorem ends_digit_of_takeWhile (r : List Char) (d : Char) (ds : List Char)
    (h : r.takeWhile isDigitCh = d :: ds) :
    ∃ q e, d :: ds = q ++ [e] ∧ isDigitCh e = true := by
  rcases List.eq_nil_or_concat (d :: ds) with h0 | ⟨q, e, he⟩
  · simp at h0
  · rw [List.concat_eq_append] at he
    refine ⟨q, e, he, ?_⟩
    have hm : e ∈ r.takeWhile isDigitCh := by
      rw [h, he]
      simp
    exact List.mem_takeWhile_imp hm

theorem lexUInt_consumed (s ds rest : List Char) (h : lexUInt s = some (ds, rest)) :
    s = ds ++ rest ∧ ∃ q d, ds = q ++ [d] ∧ isDigitCh d = true := by
  match s with
  | [] => simp [lexUInt] at h
  | c :: r =>
    simp only [lexUInt] at h
    by_cases hc : c = '0'
    · subst hc
      rw [if_pos rfl] at h
      simp only [Option.some.injEq, Prod.mk.injEq] at h
      obtain ⟨rfl, rfl⟩ := h
      exact ⟨rfl, [], '0', rfl, rfl⟩
    · rw [if_neg hc] at h
      by_cases h19 : isDigit19 c = true
      · rw [if_pos h19] at h
        simp only [Option.some.injEq, Prod.mk.injEq] at h
        obtain ⟨rfl, rfl⟩ := h
        constructor
        · exact congrArg (c :: ·) (List.takeWhile_append_dropWhile (p := isDigitCh) (l := r)).symm
        · cases htw : r.takeWhile isDigitCh with
          | nil =>
            exact ⟨[], c, rfl, isDigit19_imp_isDigitCh c h19⟩
          | cons d' ds' =>
            obtain ⟨q, e, hqe, he⟩ := ends_digit_of_takeWhile r d' ds' htw
            exact ⟨c :: q, e, by rw [hqe]; simp, he⟩
      · rw [if_neg h19] at h
        exact absurd h (by simp)

theorem lexInt_consumed (s ds rest : List Char) (h : lexInt s = some (ds, rest)) :
    s = ds ++ rest ∧ ∃ q d, ds = q ++ [d] ∧ isDigitCh d = true := by
  match s with
  | [] => simp [lexInt] at h
  | c :: r =>
    simp only [lexInt] at h
    by_cases hc : c = '-'
    · subst hc
      rw [if_pos rfl] at h
      cases hu : lexUInt r with
      | none => rw [hu] at h; exact absurd h (by simp)
      | some p =>
        obtain ⟨ds', rest'⟩ := p
        rw [hu] at h
        simp only [Option.some.injEq, Prod.mk.injEq] at h
        obtain ⟨rfl, rfl⟩ := h
        obtain ⟨hr, q, d, hqd, hd⟩ := lexUInt_consumed r ds' rest' hu
        exact ⟨by rw [hr]; rfl, '-' :: q, d, by rw [hqd]; simp, hd⟩
    · rw [if_neg hc] at h
      exact lexUInt_consumed (c :: r) ds rest h

theorem lexFrac_consumed (s : List Char) :
    s = (lexFrac s).1 ++ (lexFrac s).2 ∧
      ((lexFrac s).1 = [] ∨ ∃ q d, (lexFrac s).1 = q ++ [d] ∧ isDigitCh d = true) := by
  match s with
  | [] => exact ⟨rfl, Or.inl rfl⟩
  | c :: r =>
    simp only [lexFrac]
    by_cases hc : c = '.'
    · subst hc
      rw [if_pos rfl]
      cases htw : r.takeWhile isDigitCh with
      | nil => exact ⟨rfl, Or.inl rfl⟩
      | cons d' ds' =>
        constructor
        · have := (List.takeWhile_append_dropWhile (p := isDigitCh) (l := r)).symm
          simp only
          rw [htw] at this
          simpa using this
        · right
          obtain ⟨q, e, hqe, he⟩ := ends_digit_of_takeWhile r d' ds' htw
          exact ⟨'.' :: q, e, by simp only; rw [hqe]; simp, he⟩
    · rw [if_neg hc]
      exact ⟨rfl, Or.inl rfl⟩

theorem lexExp_consumed (s : List Char) :
    s = (lexExp s).1 ++ (lexExp s).2 ∧
      ((lexExp s).1 = [] ∨ ∃ q d, (lexExp s).1 = q ++ [d] ∧ isDigitCh d = true) := by
  match s with
  | [] => exact ⟨rfl, Or.inl rfl⟩
  | e :: r =>
    by_cases he : e = 'e' ∨ e = 'E'
    · match r with
      | [] =>
        simp only [lexExp, if_pos he]
        exact ⟨rfl, Or.inl (by first | rfl | simp)⟩
      | c :: r2 =>
        by_cases hc : c = '+' ∨ c = '-'
        · cases htw : r2.takeWhile isDigitCh with
          | nil =>
            simp only [lexExp, if_pos he, if_pos hc, htw]
            exact ⟨rfl, Or.inl (by first | rfl | simp)⟩
          | cons d' ds' =>
            simp only [lexExp, if_pos he, if_pos hc, htw]
            constructor
            · have := (List.takeWhile_append_dropWhile (p := isDigitCh) (l := r2)).symm
              rw [htw] at this
              simpa using this
            · right
              obtain ⟨q, e', hqe, he'⟩ := ends_digit_of_takeWhile r2 d' ds' htw
              exact ⟨e :: c :: q, e', by rw [hqe]; simp, he'⟩
        · cases htw : (c :: r2).takeWhile isDigitCh with
          | nil =>
            simp only [lexExp, if_pos he, if_neg hc, htw]
            exact ⟨rfl, Or.inl (by first | rfl | simp)⟩
          | cons d' ds' =>
            simp only [lexExp, if_pos he, if_neg hc, htw]
            constructor
            · have := (List.takeWhile_append_dropWhile (p := isDigitCh) (l := c :: r2)).symm
              rw [htw] at this
              simpa using this
            · right
              obtain ⟨q, e', hqe, he'⟩ := ends_digit_of_takeWhile (c :: r2) d' ds' htw
              exact ⟨e :: q, e', by rw [hqe]; simp, he'⟩
    · simp only [lexExp, if_neg he]
      exact ⟨rfl, Or.inl (by first | rfl | simp)⟩

/-- A NUMBER_RE match is an initial segment of the input whose last
character is a digit. -/
theorem lexNumber_consumed (s lx rest : List Char) (h : lexNumber s = some (lx, rest)) :
    s = lx ++ rest ∧ ∃ q d, lx = q ++ [d] ∧ isDigitCh d = true := by
  simp only [lexNumber] at h
  cases hi : lexInt s with
  | none => rw [hi] at h; exact absurd h (by simp)
  | some p =>
    obtain ⟨ip, r1⟩ := p
    rw [hi] at h
    simp only [Option.some.injEq, Prod.mk.injEq] at h
    obtain ⟨rfl, rfl⟩ := h
    obtain ⟨hs1, qi, di, hqi, hdi⟩ := lexInt_consumed s ip r1 hi
    obtain ⟨hs2, hf⟩ := lexFrac_consumed r1
    obtain ⟨hs3, he⟩ := lexExp_consumed (lexFrac r1).2
    constructor
    · conv_lhs => rw [hs1]
      conv_lhs => rw [hs2]
      conv_lhs => rw [hs3]
      simp [List.append_assoc]
    · rcases he with he0 | ⟨qe, de, hqe, hde⟩
      · rcases hf with hf0 | ⟨qf, df, hqf, hdf⟩
        · rw [hf0, he0]
          exact ⟨qi, di, by rw [hqi]; simp, hdi⟩
        · rw [he0, hqf]
          exact ⟨ip ++ qf, df, by simp, hdf⟩
      · rw [hqe]
        exact ⟨ip ++ (lexFrac r1).1 ++ qe, de, by simp, hde⟩

theorem escUniFollow_consumed (u : Nat) (r3 : List Char) (code : Nat) (r4 : List Char)
    (h : escUniFollow u r3 = some (code, r4)) : ∃ q, r3 = q ++ r4 := by
  simp only [escUniFollow] at h
  split at h
  · split at h
    · rename_i rp
      split at h
      · exact absurd h (by simp)
      · rename_i u2 r5 heq
        split at h
        · simp only [Option.some.injEq, Prod.mk.injEq] at h
          obtain ⟨a, b, c', d, habcd⟩ := hex4_consumed rp u2 r5 heq
          refine ⟨'\\' :: 'u' :: [a, b, c', d], ?_⟩
          rw [habcd, ← h.2]
          rfl
        · simp only [Option.some.injEq, Prod.mk.injEq] at h
          exact ⟨[], by rw [← h.2]; rfl⟩
    · simp only [Option.some.injEq, Prod.mk.injEq] at h
      exact ⟨[], by rw [← h.2]; rfl⟩
  · simp only [Option.some.injEq, Prod.mk.injEq] at h
    exact ⟨[], by rw [← h.2]; rfl⟩

theorem pStrRest_consumed :
    ∀ (f : Nat) (s : List Char) (cs : List Nat) (rem : List Char),
      pStrRest f s = some (cs, rem) → ∃ q, s = q ++ '"' :: rem := by
  intro f s
  induction f, s using pStrRest.induct <;> intro cs rem h <;>
    rw [pStrRest.eq_def] at h <;> (try simp_all)
  case case7 =>
    rename_i hhex u2 r5 hesc csx restx hrec ih
    obtain ⟨q, hq⟩ := ih
    obtain ⟨a, b, c', d, habcd⟩ := hex4_consumed _ _ _ hhex
    obtain ⟨q2, hq2⟩ := escUniFollow_consumed _ _ _ _ hesc
    exact ⟨'\\' :: 'u' :: a :: b :: c' :: d :: (q2 ++ q),
      by rw [habcd, hq2, hq]; simp⟩
  case case10 =>
    rename_i c r hcu n hesc2 csx restx hrec ih
    obtain ⟨q, hq⟩ := ih
    exact ⟨'\\' :: c :: q, by simp [hq]⟩
  case case13 =>
    rename_i c r h2 h1 csx restx hw hrec ih
    obtain ⟨q, hq⟩ := ih
    exact ⟨c :: q, by simp [hq]⟩

/-- Digits are not Python whitespace and are not the closing brace. -/
theorem digitCh_not_ws (d : Char) (hd : isDigitCh d = true) :
    pyWsChar d = false ∧ d ≠ '}' := by
  have hb : 48 ≤ d.toNat ∧ d.toNat ≤ 57 := by
    simpa [isDigitCh] using hd
  obtain ⟨hb1, hb2⟩ := hb
  constructor
  · rw [Bool.eq_false_iff]
    intro hc
    have hm : d.toNat ∈ pyWsCodes := by
      simpa [pyWsChar] using hc
    simp only [pyWsCodes, List.mem_cons, List.not_mem_nil, or_false] at hm
    rcases hm with h' | h' | h' | h' | h' | h' | h' | h' | h' | h' | h' | h' | h' | h' | h' | h' | h' | h' | h' | h' | h' | h' | h' | h' | h' | h' | h' | h' | h' <;> omega
  · intro hds
    subst hds
    have h125 : ('}').toNat = 125 := rfl
    omega

/-- A successful scan consumes an initial segment of the input whose shape
depends on the mode, as described by consumedSpec. -/
theorem pRun_consumed :
    ∀ (f : Nat) (m : PMode) (s : List Char) (v : JVal) (rem : List Char),
      pRun f m s = some (v, rem) → consumedSpec m s rem := by
  intro f m s
  induction f, m, s using pRun.induct <;> intro v rem h <;>
    (try (exfalso; rw [pRun.eq_def] at h; simp_all; done))
  case case3 =>
    rename_i fuel r cs rest hps
    rw [pRun.eq_def] at h
    simp [hps] at h
    obtain ⟨-, rfl⟩ := h
    obtain ⟨q, hq⟩ := pStrRest_consumed _ _ _ _ hps
    simp only [consumedSpec]
    refine ⟨⟨'"' :: q ++ ['"'], by simp [hq]⟩, Or.inr ⟨'"' :: q, '"', by simp [hq], rfl, by decide⟩⟩
  case case5 =>
    rename_i fuel r hne ih
    rw [pRun.eq_def] at h
    simp at h
    obtain ⟨q, hq⟩ := ih v rem h
    simp only [consumedSpec]
    refine ⟨⟨'{' :: (r.takeWhile jsonWsChar ++ q ++ ['}']), ?_⟩, Or.inl ⟨r, rfl⟩⟩
    conv_lhs => rw [show r = r.takeWhile jsonWsChar ++ skipWs r from skipWs_decomposition r, hq]
    simp
  case case6 =>
    rename_i fuel r hne1 hne2 ih
    rw [pRun.eq_def] at h
    simp at h
    obtain ⟨q, hq⟩ := ih v rem h
    simp only [consumedSpec]
    constructor
    · refine ⟨'[' :: (r.takeWhile jsonWsChar ++ q ++ [']']), ?_⟩
      conv_lhs => rw [show r = r.takeWhile jsonWsChar ++ skipWs r from skipWs_decomposition r, hq]
      simp
    · refine Or.inr ⟨'[' :: (r.takeWhile jsonWsChar ++ q), ']', ?_, by decide, by decide⟩
      conv_lhs => rw [show r = r.takeWhile jsonWsChar ++ skipWs r from skipWs_decomposition r, hq]
      simp
  case case7 =>
    rename_i fuel c r h1 h2 h3 hlit
    obtain ⟨rfl, ht⟩ := hlit
    rw [pRun.eq_def] at h
    simp [ht] at h
    obtain ⟨-, rfl⟩ := h
    have hr : 'n' :: r = ['n', 'u', 'l', 'l'] ++ r.drop 3 := by
      conv_lhs => rw [show r = r.take 3 ++ r.drop 3 from (List.take_append_drop 3 r).symm, ht]
      rfl
    simp only [consumedSpec]
    exact ⟨⟨['n', 'u', 'l', 'l'], hr⟩,
      Or.inr ⟨['n', 'u', 'l'], 'l', by rw [hr]; rfl, by decide, by decide⟩⟩
  case case8 =>
    rename_i fuel c r h1 h2 h3 h4 hlit
    obtain ⟨rfl, ht⟩ := hlit
    rw [pRun.eq_def] at h
    simp [ht] at h
    obtain ⟨-, rfl⟩ := h
    have hr : 't' :: r = ['t', 'r', 'u', 'e'] ++ r.drop 3 := by
      conv_lhs => rw [show r = r.take 3 ++ r.drop 3 from (List.take_append_drop 3 r).symm, ht]
      rfl
    simp only [consumedSpec]
    exact ⟨⟨['t', 'r', 'u', 'e'], hr⟩,
      Or.inr ⟨['t', 'r', 'u'], 'e', by rw [hr]; rfl, by decide, by decide⟩⟩
  case case9 =>
    rename_i fuel c r h1 h2 h3 h4 h5 hlit
    obtain ⟨rfl, ht⟩ := hlit
    rw [pRun.eq_def] at h
    simp [ht] at h
    obtain ⟨-, rfl⟩ := h
    have hr : 'f' :: r = ['f', 'a', 'l', 's', 'e'] ++ r.drop 4 := by
      conv_lhs => rw [show r = r.take 4 ++ r.drop 4 from (List.take_append_drop 4 r).symm, ht]
      rfl
    simp only [consumedSpec]
    exact ⟨⟨['f', 'a', 'l', 's', 'e'], hr⟩,
      Or.inr ⟨['f', 'a', 'l', 's'], 'e', by rw [hr]; rfl, by decide, by decide⟩⟩
  case case10 =>
    rename_i fuel c r h1 h2 h3 h4 h5 h6 ds rest hlex
    rw [pRun.eq_def] at h
    simp [h1, h2, h3, h4, h5, h6, hlex] at h
    obtain ⟨-, rfl⟩ := h
    obtain ⟨hcat, q, d, hds, hd⟩ := lexNumber_consumed _ _ _ hlex
    obtain ⟨hw, hne⟩ := digitCh_not_ws d hd
    simp only [consumedSpec]
    refine ⟨⟨ds, hcat⟩, Or.inr ⟨q, d, ?_, hw, hne⟩⟩
    rw [hcat, hds]
    simp
  case case11 =>
    rename_i fuel c r h1 h2 h3 h4 h5 h6 hlex hlit
    obtain ⟨rfl, ht⟩ := hlit
    rw [pRun.eq_def] at h
    simp [hlex, ht] at h
    obtain ⟨-, rfl⟩ := h
    have hr : 'N' :: r = ['N', 'a', 'N'] ++ r.drop 2 := by
      conv_lhs => rw [show r = r.take 2 ++ r.drop 2 from (List.take_append_drop 2 r).symm, ht]
      rfl
    simp only [consumedSpec]
    exact ⟨⟨['N', 'a', 'N'], hr⟩,
      Or.inr ⟨['N', 'a'], 'N', by rw [hr]; rfl, by decide, by decide⟩⟩
  case case12 =>
    rename_i fuel c r h1 h2 h3 h4 h5 h6 hlex h7 hlit
    obtain ⟨rfl, ht⟩ := hlit
    rw [pRun.eq_def] at h
    simp [hlex, ht] at h
    obtain ⟨-, rfl⟩ := h
    have hr : 'I' :: r = ['I', 'n', 'f', 'i', 'n', 'i', 't', 'y'] ++ r.drop 7 := by
      conv_lhs => rw [show r = r.take 7 ++ r.drop 7 from (List.take_append_drop 7 r).symm, ht]
      rfl
    simp only [consumedSpec]
    exact ⟨⟨['I', 'n', 'f', 'i', 'n', 'i', 't', 'y'], hr⟩,
      Or.inr ⟨['I', 'n', 'f', 'i', 'n', 'i', 't'], 'y', by rw [hr]; rfl, by decide, by decide⟩⟩
  case case13 =>
    rename_i fuel c r h1 h2 h3 h4 h5 h6 hlex h7 h8 hlit
    obtain ⟨rfl, ht⟩ := hlit
    rw [pRun.eq_def] at h
    simp [hlex, ht] at h
    obtain ⟨-, rfl⟩ := h
    have hr : '-' :: r = ['-', 'I', 'n', 'f', 'i', 'n', 'i', 't', 'y'] ++ r.drop 8 := by
      conv_lhs => rw [show r = r.take 8 ++ r.drop 8 from (List.take_append_drop 8 r).symm, ht]
      rfl
    simp only [consumedSpec]
    exact ⟨⟨['-', 'I', 'n', 'f', 'i', 'n', 'i', 't', 'y'], hr⟩,
      Or.inr ⟨['-', 'I', 'n', 'f', 'i', 'n', 'i', 't'], 'y', by rw [hr]; rfl, by decide, by decide⟩⟩
  case case14 =>
    rename_i fuel c r h1 h2 h3 h4 h5 h6 hlex h7 h8 h9
    rw [pRun.eq_def] at h
    simp [h1, h2, h3, h4, h5, h6, hlex, h7, h8, h9] at h
  case case16 =>
    rename_i fuel r
    rw [pRun.eq_def] at h
    simp at h
    obtain ⟨-, rfl⟩ := h
    exact ⟨[], rfl⟩
  case case17 =>
    rename_i fuel c r hne ih
    rw [pRun.eq_def] at h
    simp [hne] at h
    exact ih v rem h
  case case23 =>
    rename_i fuel r2 key r1 hkey rcol vv r3 hval rrem hcol hbr ih
    rw [pRun.eq_def] at h
    simp [hkey, hcol, hval, hbr] at h
    obtain ⟨-, rfl⟩ := h
    obtain ⟨qk, hqk⟩ := pStrRest_consumed _ _ _ _ hkey
    obtain ⟨⟨qv, hqv⟩, -⟩ := ih vv r3 hval
    simp only [consumedSpec]
    refine ⟨'"' :: qk ++ ['"'] ++ r1.takeWhile jsonWsChar ++ [':'] ++
      rcol.takeWhile jsonWsChar ++ qv ++ r3.takeWhile jsonWsChar, ?_⟩
    conv_lhs => rw [hqk]
    conv_lhs => rw [show r1 = r1.takeWhile jsonWsChar ++ skipWs r1 from skipWs_decomposition r1, hcol]
    conv_lhs => rw [show rcol = rcol.takeWhile jsonWsChar ++ skipWs rcol from skipWs_decomposition rcol, hqv]
    conv_lhs => rw [show r3 = r3.takeWhile jsonWsChar ++ skipWs r3 from skipWs_decomposition r3, hbr]
    simp
  case case24 =>
    rename_i fuel r2 key r1 hkey rcol vv r3 hval rnext hcol hcom hne ih2 ih1
    rw [pRun.eq_def] at h
    simp [hkey, hcol, hval, hcom] at h
    obtain ⟨ps, rmem, hmem, hres⟩ := consField_some _ _ _ h
    rw [Prod.mk.injEq] at hres
    obtain ⟨-, rfl⟩ := hres
    obtain ⟨qk, hqk⟩ := pStrRest_consumed _ _ _ _ hkey
    obtain ⟨⟨qv, hqv⟩, -⟩ := ih2 vv r3 hval
    obtain ⟨qm, hqm⟩ := ih1 _ _ hmem
    simp only [consumedSpec]
    refine ⟨'"' :: qk ++ ['"'] ++ r1.takeWhile jsonWsChar ++ [':'] ++
      rcol.takeWhile jsonWsChar ++ qv ++ r3.takeWhile jsonWsChar ++ [','] ++
      rnext.takeWhile jsonWsChar ++ qm, ?_⟩
    conv_lhs => rw [hqk]
    conv_lhs => rw [show r1 = r1.takeWhile jsonWsChar ++ skipWs r1 from skipWs_decomposition r1, hcol]
    conv_lhs => rw [show rcol = rcol.takeWhile jsonWsChar ++ skipWs rcol from skipWs_decomposition rcol, hqv]
    conv_lhs => rw [show r3 = r3.takeWhile jsonWsChar ++ skipWs r3 from skipWs_decomposition r3, hcom]
    conv_lhs => rw [show rnext = rnext.takeWhile jsonWsChar ++ skipWs rnext from skipWs_decomposition rnext, hqm]
    simp
  case case29 =>
    rename_i fuel r
    rw [pRun.eq_def] at h
    simp at h
    obtain ⟨-, rfl⟩ := h
    exact ⟨[], rfl⟩
  case case30 =>
    rename_i fuel c r hne ih
    rw [pRun.eq_def] at h
    simp [hne] at h
    exact ih v rem h
  case case33 =>
    rename_i s fuel vv r3 hval rrem hbr ih
    rw [pRun.eq_def] at h
    simp [hval, hbr] at h
    obtain ⟨-, rfl⟩ := h
    obtain ⟨⟨qv, hqv⟩, -⟩ := ih vv r3 hval
    simp only [consumedSpec]
    refine ⟨qv ++ r3.takeWhile jsonWsChar, ?_⟩
    conv_lhs => rw [hqv]
    conv_lhs => rw [show r3 = r3.takeWhile jsonWsChar ++ skipWs r3 from skipWs_decomposition r3, hbr]
    simp
  case case34 =>
    rename_i s fuel vv r3 hval rnext hcom hne ih2 ih1
    rw [pRun.eq_def] at h
    simp [hval, hcom] at h
    obtain ⟨vs, rmem, hmem, hres⟩ := consElem_some _ _ _ h
    rw [Prod.mk.injEq] at hres
    obtain ⟨-, rfl⟩ := hres
    obtain ⟨⟨qv, hqv⟩, -⟩ := ih2 vv r3 hval
    obtain ⟨qm, hqm⟩ := ih1 _ _ hmem
    simp only [consumedSpec]
    refine ⟨qv ++ r3.takeWhile jsonWsChar ++ [','] ++ rnext.takeWhile jsonWsChar ++ qm, ?_⟩
    conv_lhs => rw [hqv]
    conv_lhs => rw [show r3 = r3.takeWhile jsonWsChar ++ skipWs r3 from skipWs_decomposition r3, hcom]
    conv_lhs => rw [show rnext = rnext.takeWhile jsonWsChar ++ skipWs rnext from skipWs_decomposition rnext, hqm]
    simp

/-- lexUInt ignores appended text when it leaves a nonempty tail. -/
theorem lexUInt_ext (s u rest t : List Char)
    (h : lexUInt s = some (u, rest)) (hne : rest ≠ []) :
    lexUInt (s ++ t) = some (u, rest ++ t) := by
  match s with
  | [] => simp [lexUInt] at h
  | c :: r =>
    simp only [List.cons_append, lexUInt] at h ⊢
    by_cases h0 : c = '0'
    · simp only [if_pos h0] at h ⊢
      simp only [Option.some.injEq, Prod.mk.injEq] at h
      obtain ⟨rfl, rfl⟩ := h
      simp
    · by_cases h19 : isDigit19 c = true
      · simp only [if_neg h0, if_pos h19] at h ⊢
        simp only [Option.some.injEq, Prod.mk.injEq] at h
        obtain ⟨rfl, rfl⟩ := h
        have hst := takeWhile_append_stable isDigitCh r t hne
        rw [hst.1, hst.2]
      · simp [if_neg h0, if_neg h19] at h

/-- lexInt ignores appended text when it leaves a nonempty tail. -/
theorem lexInt_ext (s u rest t : List Char)
    (h : lexInt s = some (u, rest)) (hne : rest ≠ []) :
    lexInt (s ++ t) = some (u, rest ++ t) := by
  match s with
  | [] => simp [lexInt] at h
  | c :: r =>
    simp only [List.cons_append, lexInt] at h ⊢
    by_cases hm : c = '-'
    · simp only [if_pos hm] at h ⊢
      cases hu : lexUInt r with
      | none => rw [hu] at h; exact absurd h (by simp)
      | some p =>
        obtain ⟨ds, r1⟩ := p
        rw [hu] at h
        simp only [Option.some.injEq, Prod.mk.injEq] at h
        obtain ⟨rfl, rfl⟩ := h
        rw [lexUInt_ext r ds r1 t hu hne]
    · simp only [if_neg hm] at h ⊢
      have := lexUInt_ext (c :: r) u rest t h hne
      simpa using this

/-- A matched fraction part ignores appended text when it leaves a nonempty
tail. -/
theorem lexFrac_ext_pos (s f1 rest t : List Char)
    (h : lexFrac s = (f1, rest)) (hmatch : f1 ≠ []) (hne : rest ≠ []) :
    lexFrac (s ++ t) = (f1, rest ++ t) := by
  match s with
  | [] => simp [lexFrac] at h; simp [← h.1] at hmatch
  | c :: r =>
    simp only [List.cons_append, lexFrac] at h ⊢
    by_cases hd : c = '.'
    · simp only [if_pos hd] at h ⊢
      cases htw : r.takeWhile isDigitCh with
      | nil => rw [htw] at h; rw [Prod.mk.injEq] at h; simp [← h.1] at hmatch
      | cons d ds =>
        rw [htw] at h
        rw [Prod.mk.injEq] at h
        obtain ⟨rfl, rfl⟩ := h
        have hdw : r.dropWhile isDigitCh ≠ [] := hne
        have hst := takeWhile_append_stable isDigitCh r t hdw
        rw [hst.1, hst.2, htw]
    · simp only [if_neg hd] at h
      rw [Prod.mk.injEq] at h
      simp [← h.1] at hmatch

/-- An unmatched fraction part stays unmatched under appended text, as long
as the tail is nonempty and not a bare dot. -/
theorem lexFrac_ext_neg (s t : List Char) (h : (lexFrac s).1 = [])
    (hrest : (lexFrac s).2 = s) (hne : s ≠ []) (hdot : s ≠ ['.']) :
    lexFrac (s ++ t) = ([], s ++ t) := by
  match s with
  | [] => exact absurd rfl hne
  | c :: r =>
    simp only [List.cons_append, lexFrac] at h ⊢
    by_cases hd : c = '.'
    · subst hd
      match r with
      | [] => exact absurd rfl hdot
      | c2 :: r2 =>
        simp only [if_pos rfl] at h ⊢
        cases htw : (c2 :: r2).takeWhile isDigitCh with
        | cons d ds => rw [htw] at h; simp at h
        | nil =>
          have hc2 : isDigitCh c2 = false := by
            by_contra hcc
            simp only [Bool.not_eq_false] at hcc
            simp [List.takeWhile_cons, hcc] at htw
          simp [List.takeWhile_cons, hc2]
    · simp [if_neg hd]

/-- A matched exponent part ignores appended text when it leaves a nonempty
tail. -/
theorem lexExp_ext_pos (s e1 rest t : List Char)
    (h : lexExp s = (e1, rest)) (hmatch : e1 ≠ []) (hne : rest ≠ []) :
    lexExp (s ++ t) = (e1, rest ++ t) := by
  match s with
  | [] => simp [lexExp] at h; simp [← h.1] at hmatch
  | e :: r =>
    by_cases he : e = 'e' ∨ e = 'E'
    case neg =>
      simp only [lexExp, if_neg he] at h
      rw [Prod.mk.injEq] at h
      simp [← h.1] at hmatch
    case pos =>
    match r with
    | [] =>
      simp only [lexExp, if_pos he] at h
      rw [Prod.mk.injEq] at h
      simp [← h.1] at hmatch
    | c :: r2 =>
      by_cases hc : c = '+' ∨ c = '-'
      · cases htw : r2.takeWhile isDigitCh with
        | nil =>
          simp only [lexExp, if_pos he, if_pos hc, htw] at h
          rw [Prod.mk.injEq] at h
          simp [← h.1] at hmatch
        | cons d ds =>
          simp only [lexExp, if_pos he, if_pos hc, htw] at h
          rw [Prod.mk.injEq] at h
          obtain ⟨rfl, rfl⟩ := h
          have hst := takeWhile_append_stable isDigitCh r2 t hne
          simp only [List.cons_append]
          simp only [lexExp, if_pos he, if_pos hc, hst.1, htw, hst.2]
      · cases htw : (c :: r2).takeWhile isDigitCh with
        | nil =>
          simp only [lexExp, if_pos he, if_neg hc, htw] at h
          rw [Prod.mk.injEq] at h
          simp [← h.1] at hmatch
        | cons d ds =>
          simp only [lexExp, if_pos he, if_neg hc, htw] at h
          rw [Prod.mk.injEq] at h
          obtain ⟨rfl, rfl⟩ := h
          have hst := takeWhile_append_stable isDigitCh (c :: r2) t hne
          simp only [List.cons_append]
          simp only [lexExp, if_pos he, if_neg hc]
          rw [show c :: (r2 ++ t) = (c :: r2) ++ t from (List.cons_append c r2 t).symm,
            hst.1, htw, hst.2]

/-- An unmatched exponent part stays unmatched under appended text, as long
as the tail is nonempty and not a bare exponent head. -/
theorem lexExp_ext_neg (s t : List Char) (h : (lexExp s).1 = [])
    (hne : s ≠ []) (hexts : ¬ s ∈ numTailExts) :
    lexExp (s ++ t) = ([], s ++ t) := by
  match s with
  | [] => exact absurd rfl hne
  | e :: r =>
    by_cases he : e = 'e' ∨ e = 'E'
    case neg => simp only [List.cons_append, lexExp, if_neg he]
    case pos =>
    match r with
    | [] =>
      exfalso
      rcases he with rfl | rfl <;> simp [numTailExts] at hexts
    | c :: r2 =>
      by_cases hc : c = '+' ∨ c = '-'
      · match r2 with
        | [] =>
          exfalso
          rcases he with rfl | rfl <;> rcases hc with rfl | rfl <;>
            simp [numTailExts] at hexts
        | c3 :: r3 =>
          have hdig : isDigitCh c3 = false := by
            by_contra hcc
            simp only [Bool.not_eq_false] at hcc
            simp [lexExp, if_pos he, if_pos hc, List.takeWhile_cons, hcc] at h
          simp only [List.cons_append, lexExp, if_pos he, if_pos hc,
            List.takeWhile_cons, hdig]
          simp
      · have hdig : isDigitCh c = false := by
          by_contra hcc
          simp only [Bool.not_eq_false] at hcc
          simp [lexExp, if_pos he, if_neg hc, List.takeWhile_cons, hcc] at h
        simp only [List.cons_append, lexExp, if_pos he, if_neg hc,
          List.takeWhile_cons, hdig]
        simp

/-- A successful number lex starts with a minus sign or a digit. -/
theorem lexNumber_head (c : Char) (r lx rest : List Char)
    (h : lexNumber (c :: r) = some (lx, rest)) :
    c = '-' ∨ isDigitCh c = true := by
  simp only [lexNumber, lexInt] at h
  by_cases hm : c = '-'
  · exact Or.inl hm
  · right
    simp only [if_neg hm, lexUInt] at h
    by_cases h0 : c = '0'
    · subst h0; decide
    · by_cases h19 : isDigit19 c = true
      · exact isDigit19_imp_isDigitCh c h19
      · simp [if_neg h0, if_neg h19] at h

/-- A head character that is neither zero nor a nonzero digit fails lexUInt. -/
theorem lexUInt_none_of_head (c : Char) (r : List Char)
    (h0 : ¬c = '0') (h19 : isDigit19 c = false) :
    lexUInt (c :: r) = none := by
  simp [lexUInt, if_neg h0, h19]

/-- A head character that is neither a minus sign nor a digit fails the
number lexer. -/
theorem lexNumber_none_of_head (c : Char) (r : List Char)
    (hm : ¬c = '-') (h0 : ¬c = '0') (h19 : isDigit19 c = false) :
    lexNumber (c :: r) = none := by
  simp [lexNumber, lexInt, if_neg hm, lexUInt_none_of_head c r h0 h19]

/-- The number token ignores appended text when its tail is nonempty and is
not one of the extendable tails. -/
theorem lexNumber_ext (s lx rest t : List Char)
    (h : lexNumber s = some (lx, rest)) (hne : rest ≠ [])
    (hexts : ¬ rest ∈ numTailExts) :
    lexNumber (s ++ t) = some (lx, rest ++ t) := by
  simp only [lexNumber] at h ⊢
  cases hi : lexInt s with
  | none => rw [hi] at h; exact absurd h (by simp)
  | some p =>
    obtain ⟨ip, r1⟩ := p
    rw [hi] at h
    simp only [Option.some.injEq, Prod.mk.injEq] at h
    obtain ⟨rfl, rfl⟩ := h
    have hr1ne : r1 ≠ [] := by
      intro h0; rw [h0] at hne; exact hne rfl
    have hfrac2ne : (lexFrac r1).2 ≠ [] := by
      intro h0; rw [h0] at hne; exact hne rfl
    rw [lexInt_ext s ip r1 t hi hr1ne]
    show some (ip ++ (lexFrac (r1 ++ t)).1 ++ (lexExp (lexFrac (r1 ++ t)).2).1,
        (lexExp (lexFrac (r1 ++ t)).2).2) = _
    by_cases hf1 : (lexFrac r1).1 = []
    · have hfrac2 : (lexFrac r1).2 = r1 := by
        obtain ⟨hs2, -⟩ := lexFrac_consumed r1
        conv_rhs => rw [hs2, hf1]
        simp
      rw [hfrac2] at hne hexts hfrac2ne
      have hr1dot : r1 ≠ ['.'] := by
        intro hdot
        rw [hdot] at hexts
        exact hexts (by decide)
      have hstep := lexFrac_ext_neg r1 t hf1 hfrac2 hr1ne hr1dot
      rw [hstep]
      show some (ip ++ [] ++ (lexExp (r1 ++ t)).1, (lexExp (r1 ++ t)).2) = _
      by_cases he1 : (lexExp r1).1 = []
      · have hexp2 : (lexExp r1).2 = r1 := by
          obtain ⟨hs3, -⟩ := lexExp_consumed r1
          conv_rhs => rw [hs3, he1]
          simp
        rw [hexp2] at hexts
        have hstep2 := lexExp_ext_neg r1 t he1 hr1ne hexts
        rw [hstep2]
        simp [hf1, hfrac2, he1, hexp2]
      · have hstep2 := lexExp_ext_pos r1 (lexExp r1).1 (lexExp r1).2 t rfl he1 hne
        rw [hstep2]
        simp [hf1, hfrac2]
    · have hstep := lexFrac_ext_pos r1 (lexFrac r1).1 (lexFrac r1).2 t rfl hf1 hfrac2ne
      rw [hstep]
      show some (ip ++ (lexFrac r1).1 ++ (lexExp ((lexFrac r1).2 ++ t)).1,
          (lexExp ((lexFrac r1).2 ++ t)).2) = _
      by_cases he1 : (lexExp (lexFrac r1).2).1 = []
      · have hexp2 : (lexExp (lexFrac r1).2).2 = (lexFrac r1).2 := by
          obtain ⟨hs3, -⟩ := lexExp_consumed (lexFrac r1).2
          conv_rhs => rw [hs3, he1]
          simp
        rw [hexp2] at hexts
        have hstep2 := lexExp_ext_neg (lexFrac r1).2 t he1 hfrac2ne hexts
        rw [hstep2]
        simp [he1, hexp2]
      · have hstep2 := lexExp_ext_pos (lexFrac r1).2 (lexExp (lexFrac r1).2).1
          (lexExp (lexFrac r1).2).2 t rfl he1 hne
        rw [hstep2]

/-- A tail that begins (after whitespace) with a structural close or comma
is nonempty and not an extendable number tail. -/
theorem not_numTailExt_of_skipWs (r3 r4 : List Char) (c3 : Char)
    (h : skipWs r3 = c3 :: r4) (hc : c3 = '}' ∨ c3 = ',' ∨ c3 = ']') :
    r3 ≠ [] ∧ ¬ r3 ∈ numTailExts := by
  constructor
  · intro h0
    rw [h0] at h
    simp [skipWs] at h
  · intro hm
    fin_cases hm <;>
      simp [skipWs, List.dropWhile, jsonWsChar] at h <;>
      rcases hc with rfl | rfl | rfl <;> simp_all

theorem pStrRest_nil (f : Nat) : pStrRest f [] = none := by
  cases f with
  | zero => rfl
  | succ f => rfl

theorem pStrRest_backslash_nil (f : Nat) : pStrRest f ['\\'] = none := by
  cases f with
  | zero => rfl
  | succ f => rfl

/-- Outside the high-surrogate continuation shape the follower consumes
nothing. -/
theorem escUniFollow_fallback (u : Nat) (r3 : List Char)
    (hshape : ∀ rp, r3 ≠ '\\' :: 'u' :: rp)
    (hu : (0xD800 ≤ u && u ≤ 0xDBFF) = true) :
    escUniFollow u r3 = some (u, r3) := by
  unfold escUniFollow
  rw [if_pos hu]
  split
  · rename_i rp
    exact absurd rfl (hshape rp)
  · rfl

/-- The surrogate follower ignores appended text whenever the text after it
still scans as a string body. -/
theorem escUniFollow_ext (f : Nat) (u : Nat) (r3 : List Char) (code : Nat)
    (r4 : List Char) (cs : List Nat) (rem : List Char) (t : List Char)
    (h : escUniFollow u r3 = some (code, r4))
    (hcont : pStrRest f r4 = some (cs, rem)) :
    escUniFollow u (r3 ++ t) = some (code, r4 ++ t) := by
  by_cases hu : (0xD800 ≤ u && u ≤ 0xDBFF) = true
  case neg =>
    simp only [escUniFollow, if_neg hu] at h ⊢
    simp only [Option.some.injEq, Prod.mk.injEq] at h
    obtain ⟨rfl, rfl⟩ := h
    rfl
  case pos =>
  rcases r3 with _ | ⟨c1, r3a⟩
  · rw [escUniFollow_fallback u [] (fun rp hh => by simp at hh) hu] at h
    simp only [Option.some.injEq, Prod.mk.injEq] at h
    obtain ⟨rfl, rfl⟩ := h
    rw [pStrRest_nil] at hcont
    exact absurd hcont (by simp)
  · by_cases hc1 : c1 = '\\'
    · subst hc1
      rcases r3a with _ | ⟨c2, rp⟩
      · rw [escUniFollow_fallback u ['\\'] (fun rp hh => by simp at hh) hu] at h
        simp only [Option.some.injEq, Prod.mk.injEq] at h
        obtain ⟨rfl, rfl⟩ := h
        rw [pStrRest_backslash_nil] at hcont
        exact absurd hcont (by simp)
      · by_cases hc2 : c2 = 'u'
        · subst hc2
          simp only [escUniFollow, if_pos hu, List.cons_append] at h ⊢
          cases hh : hex4 rp with
          | none => rw [hh] at h; simp at h
          | some p =>
            obtain ⟨u2, r5⟩ := p
            simp only [hh] at h
            simp only [hex4_append rp u2 r5 t hh]
            by_cases hlow : (0xDC00 ≤ u2 && u2 ≤ 0xDFFF) = true
            · rw [if_pos hlow] at h ⊢
              simp only [Option.some.injEq, Prod.mk.injEq] at h
              obtain ⟨rfl, rfl⟩ := h
              rfl
            · rw [if_neg hlow] at h ⊢
              simp only [Option.some.injEq, Prod.mk.injEq] at h
              obtain ⟨rfl, rfl⟩ := h
              simp
        · have hsh : ∀ rp2, '\\' :: c2 :: rp ≠ '\\' :: 'u' :: rp2 := by
            intro rp2 hh
            injection hh with h1 h2
            injection h2 with h3 h4
            exact hc2 h3
          rw [escUniFollow_fallback u ('\\' :: c2 :: rp) hsh hu] at h
          simp only [Option.some.injEq, Prod.mk.injEq] at h
          obtain ⟨rfl, rfl⟩ := h
          have hsh2 : ∀ rp2, '\\' :: c2 :: (rp ++ t) ≠ '\\' :: 'u' :: rp2 := by
            intro rp2 hh
            injection hh with h1 h2
            injection h2 with h3 h4
            exact hc2 h3
          simpa using escUniFollow_fallback u ('\\' :: c2 :: (rp ++ t)) hsh2 hu
    · have hsh : ∀ rp2, c1 :: r3a ≠ '\\' :: 'u' :: rp2 := by
        intro rp2 hh
        injection hh with h1 h2
        exact hc1 h1
      rw [escUniFollow_fallback u (c1 :: r3a) hsh hu] at h
      simp only [Option.some.injEq, Prod.mk.injEq] at h
      obtain ⟨rfl, rfl⟩ := h
      have hsh2 : ∀ rp2, c1 :: (r3a ++ t) ≠ '\\' :: 'u' :: rp2 := by
        intro rp2 hh
        injection hh with h1 h2
        exact hc1 h1
      simpa using escUniFollow_fallback u (c1 :: (r3a ++ t)) hsh2 hu

theorem pStrRest_ext :
    ∀ (f : Nat) (s : List Char) (cs : List Nat) (rem t : List Char),
      pStrRest f s = some (cs, rem) → pStrRest f (s ++ t) = some (cs, rem ++ t) := by
  intro f s
  induction f, s using pStrRest.induct <;> intro cs rem t h <;>
    (try (exfalso; rw [pStrRest.eq_def] at h; simp_all; done))
  case case3 =>
    rename_i fuel r
    rw [pStrRest.eq_def] at h
    simp at h
    obtain ⟨rfl, rfl⟩ := h
    rw [pStrRest.eq_def]
    simp
  case case7 =>
    rename_i fuel r u2 r5a hhex code r5 hesc cs0 rest0 hrec hne ih
    rw [pStrRest.eq_def] at h
    simp [hhex, hesc, hrec] at h
    obtain ⟨rfl, rfl⟩ := h
    rw [pStrRest.eq_def]
    simp only [List.cons_append]
    simp [hex4_append r u2 r5a t hhex,
      escUniFollow_ext fuel u2 r5a code r5 cs0 rest0 t hesc hrec,
      ih cs0 rest0 t hrec]
  case case10 =>
    rename_i fuel c r hcu n hescc cs0 rest0 hrec hne ih
    rw [pStrRest.eq_def] at h
    simp [hcu, hescc, hrec] at h
    obtain ⟨rfl, rfl⟩ := h
    rw [pStrRest.eq_def]
    simp only [List.cons_append]
    simp [hcu, hescc, ih cs0 rest0 t hrec]
  case case13 =>
    rename_i fuel c r hq hb hctl cs0 rest0 hrec ih
    rw [pStrRest.eq_def] at h
    simp [hq, hb, hctl, hrec] at h
    obtain ⟨rfl, rfl⟩ := h
    rw [pStrRest.eq_def]
    simp only [List.cons_append]
    simp [hq, hb, hctl, ih cs0 rest0 t hrec]

/-- A minus sign followed by a non-digit fails the number lexer. -/
theorem lexNumber_minus_nondigit (c : Char) (r : List Char)
    (h0 : ¬c = '0') (h19 : isDigit19 c = false) :
    lexNumber ('-' :: c :: r) = none := by
  simp [lexNumber, lexInt, lexUInt_none_of_head c r h0 h19]


theorem pRun_val_nil (f : Nat) : pRun f PMode.val [] = none := by
  cases f <;> rfl

theorem pRun_obj_nil (f : Nat) : pRun f PMode.obj [] = none := by
  cases f <;> rfl

theorem pRun_members_nil (f : Nat) : pRun f PMode.members [] = none := by
  cases f <;> rfl

theorem pRun_arr_nil (f : Nat) : pRun f PMode.arr [] = none := by
  cases f <;> rfl

theorem pRun_elems_nil (f : Nat) : pRun f PMode.elems [] = none := by
  cases f with
  | zero => rfl
  | succ f => rw [pRun.eq_def]; simp [pRun_val_nil f]

/-- A successful scan ignores appended text, provided a top-level value scan
either starts at a structural open or leaves a tail that cannot extend a
number token. -/
theorem pRun_ext :
    ∀ (f : Nat) (m : PMode) (s : List Char) (v : JVal) (rem : List Char) (t : List Char),
      pRun f m s = some (v, rem) →
      (m = PMode.val → (∃ r', s = '{' :: r') ∨ (∃ r', s = '[' :: r') ∨
        (rem ≠ [] ∧ ¬ rem ∈ numTailExts)) →
      pRun f m (s ++ t) = some (v, rem ++ t) := by
  intro f m s
  induction f, m, s using pRun.induct <;> intro v rem t h hok <;>
    (try (exfalso; rw [pRun.eq_def] at h; simp_all; done))
  case case3 =>
    rename_i fuel r cs rest hps
    rw [pRun.eq_def] at h
    simp [hps] at h
    obtain ⟨rfl, rfl⟩ := h
    rw [pRun.eq_def]
    simp only [List.cons_append]
    simp [pStrRest_ext fuel r cs rest t hps]
  case case5 =>
    rename_i fuel r hne1 ih
    rw [pRun.eq_def] at h
    simp at h
    have hnil : skipWs r ≠ [] := by
      intro h0
      rw [h0, pRun_obj_nil] at h
      exact absurd h (by simp)
    have hih := ih v rem t h (fun hm => PMode.noConfusion hm)
    rw [pRun.eq_def]
    simp only [List.cons_append]
    simp [skipWs_append_stable r t hnil, hih]
  case case6 =>
    rename_i fuel r hne1 hne2 ih
    rw [pRun.eq_def] at h
    simp at h
    have hnil : skipWs r ≠ [] := by
      intro h0
      rw [h0, pRun_arr_nil] at h
      exact absurd h (by simp)
    have hih := ih v rem t h (fun hm => PMode.noConfusion hm)
    rw [pRun.eq_def]
    simp only [List.cons_append]
    simp [skipWs_append_stable r t hnil, hih]
  case case7 =>
    rename_i fuel c r h1 h2 h3 hlit
    obtain ⟨rfl, ht⟩ := hlit
    rw [pRun.eq_def] at h
    simp [ht] at h
    obtain ⟨rfl, rfl⟩ := h
    have hr2 : r = 'u' :: 'l' :: 'l' :: r.drop 3 := by
      conv_lhs => rw [show r = r.take 3 ++ r.drop 3 from (List.take_append_drop 3 r).symm, ht]
      rfl
    rw [pRun.eq_def]
    simp only [List.cons_append]
    conv_lhs => rw [hr2]
    simp
  case case8 =>
    rename_i fuel c r h1 h2 h3 h4 hlit
    obtain ⟨rfl, ht⟩ := hlit
    rw [pRun.eq_def] at h
    simp [ht] at h
    obtain ⟨rfl, rfl⟩ := h
    have hr2 : r = 'r' :: 'u' :: 'e' :: r.drop 3 := by
      conv_lhs => rw [show r = r.take 3 ++ r.drop 3 from (List.take_append_drop 3 r).symm, ht]
      rfl
    rw [pRun.eq_def]
    simp only [List.cons_append]
    conv_lhs => rw [hr2]
    simp
  case case9 =>
    rename_i fuel c r h1 h2 h3 h4 h5 hlit
    obtain ⟨rfl, ht⟩ := hlit
    rw [pRun.eq_def] at h
    simp [ht] at h
    obtain ⟨rfl, rfl⟩ := h
    have hr2 : r = 'a' :: 'l' :: 's' :: 'e' :: r.drop 4 := by
      conv_lhs => rw [show r = r.take 4 ++ r.drop 4 from (List.take_append_drop 4 r).symm, ht]
      rfl
    rw [pRun.eq_def]
    simp only [List.cons_append]
    conv_lhs => rw [hr2]
    simp
  case case10 =>
    rename_i fuel c r h1 h2 h3 h4 h5 h6 ds rest hlex
    rw [pRun.eq_def] at h
    simp [h1, h2, h3, h4, h5, h6, hlex] at h
    obtain ⟨rfl, rfl⟩ := h
    have hhead := lexNumber_head c r ds rest hlex
    have hcn : ¬c = 'n' := by
      rcases hhead with rfl | hd
      · decide
      · intro hc; subst hc; exact absurd hd (by decide)
    have hct : ¬c = 't' := by
      rcases hhead with rfl | hd
      · decide
      · intro hc; subst hc; exact absurd hd (by decide)
    have hcf : ¬c = 'f' := by
      rcases hhead with rfl | hd
      · decide
      · intro hc; subst hc; exact absurd hd (by decide)
    have hok3 : rest ≠ [] ∧ ¬ rest ∈ numTailExts := by
      rcases hok rfl with ⟨r', hr'⟩ | ⟨r', hr'⟩ | h3'
      · exfalso
        injection hr' with hc _
        subst hc
        rcases hhead with h' | h'
        · exact absurd h' (by decide)
        · exact absurd h' (by decide)
      · exfalso
        injection hr' with hc _
        subst hc
        rcases hhead with h' | h'
        · exact absurd h' (by decide)
        · exact absurd h' (by decide)
      · exact h3'
    have hext := lexNumber_ext (c :: r) ds rest t hlex hok3.1 hok3.2
    simp only [List.cons_append] at hext
    rw [pRun.eq_def]
    simp only [List.cons_append]
    simp [h1, h2, h3, hcn, hct, hcf, hext]
  case case11 =>
    rename_i fuel c r h1 h2 h3 h4 h5 h6 hlex hlit
    obtain ⟨rfl, ht⟩ := hlit
    rw [pRun.eq_def] at h
    simp [hlex, ht] at h
    obtain ⟨rfl, rfl⟩ := h
    have hr2 : r = 'a' :: 'N' :: r.drop 2 := by
      conv_lhs => rw [show r = r.take 2 ++ r.drop 2 from (List.take_append_drop 2 r).symm, ht]
      rfl
    rw [pRun.eq_def]
    simp only [List.cons_append]
    conv_lhs => rw [hr2]
    simp [lexNumber_none_of_head 'N' ('a' :: 'N' :: (r.drop 2 ++ t)) (by decide) (by decide) (by decide)]
  case case12 =>
    rename_i fuel c r h1 h2 h3 h4 h5 h6 hlex h7 hlit
    obtain ⟨rfl, ht⟩ := hlit
    rw [pRun.eq_def] at h
    simp [hlex, ht] at h
    obtain ⟨rfl, rfl⟩ := h
    have hr2 : r = 'n' :: 'f' :: 'i' :: 'n' :: 'i' :: 't' :: 'y' :: r.drop 7 := by
      conv_lhs => rw [show r = r.take 7 ++ r.drop 7 from (List.take_append_drop 7 r).symm, ht]
      rfl
    rw [pRun.eq_def]
    simp only [List.cons_append]
    conv_lhs => rw [hr2]
    simp [lexNumber_none_of_head 'I'
      ('n' :: 'f' :: 'i' :: 'n' :: 'i' :: 't' :: 'y' :: (r.drop 7 ++ t))
      (by decide) (by decide) (by decide)]
  case case13 =>
    rename_i fuel c r h1 h2 h3 h4 h5 h6 hlex h7 h8 hlit
    obtain ⟨rfl, ht⟩ := hlit
    rw [pRun.eq_def] at h
    simp [hlex, ht] at h
    obtain ⟨rfl, rfl⟩ := h
    have hr2 : r = 'I' :: 'n' :: 'f' :: 'i' :: 'n' :: 'i' :: 't' :: 'y' :: r.drop 8 := by
      conv_lhs => rw [show r = r.take 8 ++ r.drop 8 from (List.take_append_drop 8 r).symm, ht]
      rfl
    rw [pRun.eq_def]
    simp only [List.cons_append]
    conv_lhs => rw [hr2]
    simp [lexNumber_minus_nondigit 'I'
      ('n' :: 'f' :: 'i' :: 'n' :: 'i' :: 't' :: 'y' :: (r.drop 8 ++ t))
      (by decide) (by decide)]
  case case14 =>
    rename_i fuel c r h1 h2 h3 h4 h5 h6 hlex h7 h8 h9
    rw [pRun.eq_def] at h
    simp [h1, h2, h3, h4, h5, h6, hlex, h7, h8, h9] at h
  case case16 =>
    rename_i fuel r
    rw [pRun.eq_def] at h
    simp at h
    obtain ⟨rfl, rfl⟩ := h
    rw [pRun.eq_def]
    simp
  case case17 =>
    rename_i fuel c r hne ih
    rw [pRun.eq_def] at h
    simp [hne] at h
    have hih := ih v rem t h (fun hm => PMode.noConfusion hm)
    simp only [List.cons_append] at hih
    rw [pRun.eq_def]
    simp only [List.cons_append]
    simp [hne, hih]
  case case23 =>
    rename_i fuel r2 key r1 hkey rcol vv r3 hval rrem hcol hbr ih
    rw [pRun.eq_def] at h
    simp [hkey, hcol, hval, hbr] at h
    obtain ⟨rfl, rfl⟩ := h
    have hr1ne : skipWs r1 ≠ [] := by rw [hcol]; simp
    have hrcne : skipWs rcol ≠ [] := by
      intro h0
      rw [h0, pRun_val_nil] at hval
      exact absurd hval (by simp)
    have hr3ne : skipWs r3 ≠ [] := by rw [hbr]; simp
    have hokv := not_numTailExt_of_skipWs r3 rrem '}' hbr (Or.inl rfl)
    have hkey2 := pStrRest_ext fuel r2 key r1 t hkey
    have hcol2 : skipWs (r1 ++ t) = ':' :: (rcol ++ t) := by
      simp [skipWs_append_stable r1 t hr1ne, hcol]
    have hval2 := ih vv r3 t hval (fun _ => Or.inr (Or.inr hokv))
    have hval3 : pRun fuel PMode.val (skipWs (rcol ++ t)) = some (vv, r3 ++ t) := by
      rw [skipWs_append_stable rcol t hrcne]
      exact hval2
    have hbr2 : skipWs (r3 ++ t) = '}' :: (rrem ++ t) := by
      simp [skipWs_append_stable r3 t hr3ne, hbr]
    rw [pRun.eq_def]
    simp only [List.cons_append]
    simp [hkey2, hcol2, hval3, hbr2]
  case case24 =>
    rename_i fuel r2 key r1 hkey rcol vv r3 hval rnext hcol hcom hne ih2 ih1
    rw [pRun.eq_def] at h
    simp [hkey, hcol, hval, hcom] at h
    obtain ⟨ps, rmem, hmem, hres⟩ := consField_some _ _ _ h
    rw [Prod.mk.injEq] at hres
    obtain ⟨rfl, rfl⟩ := hres
    have hr1ne : skipWs r1 ≠ [] := by rw [hcol]; simp
    have hrcne : skipWs rcol ≠ [] := by
      intro h0
      rw [h0, pRun_val_nil] at hval
      exact absurd hval (by simp)
    have hr3ne : skipWs r3 ≠ [] := by rw [hcom]; simp
    have hnne : skipWs rnext ≠ [] := by
      intro h0
      rw [h0, pRun_members_nil] at hmem
      exact absurd hmem (by simp)
    have hokv := not_numTailExt_of_skipWs r3 rnext ',' hcom (Or.inr (Or.inl rfl))
    have hkey2 := pStrRest_ext fuel r2 key r1 t hkey
    have hcol2 : skipWs (r1 ++ t) = ':' :: (rcol ++ t) := by
      simp [skipWs_append_stable r1 t hr1ne, hcol]
    have hval2 := ih2 vv r3 t hval (fun _ => Or.inr (Or.inr hokv))
    have hval3 : pRun fuel PMode.val (skipWs (rcol ++ t)) = some (vv, r3 ++ t) := by
      rw [skipWs_append_stable rcol t hrcne]
      exact hval2
    have hcom2 : skipWs (r3 ++ t) = ',' :: (rnext ++ t) := by
      simp [skipWs_append_stable r3 t hr3ne, hcom]
    have hmem2 := ih1 (JVal.jobj ps) rem t hmem (fun hm => PMode.noConfusion hm)
    have hmem3 : pRun fuel PMode.members (skipWs (rnext ++ t)) =
        some (JVal.jobj ps, rem ++ t) := by
      rw [skipWs_append_stable rnext t hnne]
      exact hmem2
    rw [pRun.eq_def]
    simp only [List.cons_append]
    simp [hkey2, hcol2, hval3, hcom2, hmem3, consField]
  case case29 =>
    rename_i fuel r
    rw [pRun.eq_def] at h
    simp at h
    obtain ⟨rfl, rfl⟩ := h
    rw [pRun.eq_def]
    simp
  case case30 =>
    rename_i fuel c r hne ih
    rw [pRun.eq_def] at h
    simp [hne] at h
    have hih := ih v rem t h (fun hm => PMode.noConfusion hm)
    simp only [List.cons_append] at hih
    rw [pRun.eq_def]
    simp only [List.cons_append]
    simp [hne, hih]
  case case33 =>
    rename_i s fuel vv r3 hval rrem hbr ih
    rw [pRun.eq_def] at h
    simp [hval, hbr] at h
    obtain ⟨rfl, rfl⟩ := h
    have hr3ne : skipWs r3 ≠ [] := by rw [hbr]; simp
    have hokv := not_numTailExt_of_skipWs r3 rrem ']' hbr (Or.inr (Or.inr rfl))
    have hval2 := ih vv r3 t hval (fun _ => Or.inr (Or.inr hokv))
    have hbr2 : skipWs (r3 ++ t) = ']' :: (rrem ++ t) := by
      simp [skipWs_append_stable r3 t hr3ne, hbr]
    rw [pRun.eq_def]
    simp [hval2, hbr2]
  case case34 =>
    rename_i s fuel vv r3 hval rnext hcom hne ih2 ih1
    rw [pRun.eq_def] at h
    simp [hval, hcom] at h
    obtain ⟨vs, rmem, hmem, hres⟩ := consElem_some _ _ _ h
    rw [Prod.mk.injEq] at hres
    obtain ⟨rfl, rfl⟩ := hres
    have hr3ne : skipWs r3 ≠ [] := by rw [hcom]; simp
    have hnne : skipWs rnext ≠ [] := by
      intro h0
      rw [h0, pRun_elems_nil] at hmem
      exact absurd hmem (by simp)
    have hokv := not_numTailExt_of_skipWs r3 rnext ',' hcom (Or.inr (Or.inl rfl))
    have hval2 := ih2 vv r3 t hval (fun _ => Or.inr (Or.inr hokv))
    have hcom2 : skipWs (r3 ++ t) = ',' :: (rnext ++ t) := by
      simp [skipWs_append_stable r3 t hr3ne, hcom]
    have hmem2 := ih1 (JVal.jarr vs) rem t hmem (fun hm => PMode.noConfusion hm)
    have hmem3 : pRun fuel PMode.elems (skipWs (rnext ++ t)) =
        some (JVal.jarr vs, rem ++ t) := by
      rw [skipWs_append_stable rnext t hnne]
      exact hmem2
    rw [pRun.eq_def]
    simp [hval2, hcom2, hmem3, consElem]

/-! ## Lemmas: basic scanner facts -/

theorem pVal_nil (f : Nat) : pVal f [] = none := by
  cases f with
  | zero => rfl
  | succ f => rfl

theorem pVal_ws_head (f : Nat) (c : Char) (r : List Char) (hc : jsonWsChar c = true) :
    pVal f (c :: r) = none := by
  have hc4 : ((c = ' ' ∨ c = '\t') ∨ c = '\n') ∨ c = '\r' := by
    simpa [jsonWsChar] using hc
  cases f with
  | zero => rfl
  | succ f => rcases hc4 with ((rfl | rfl) | rfl) | rfl <;> rfl

/-- A successful raw_decode means the text starts with a non-whitespace
character, so json.loads of the same text skips nothing. -/
theorem skipWs_eq_of_rawDecode (s : List Char) (x : JVal × List Char)
    (h : rawDecode s = some x) : skipWs s = s := by
  cases s with
  | nil => simp [rawDecode, pVal_nil] at h
  | cons c r =>
    by_cases hc : jsonWsChar c = true
    · rw [rawDecode, pVal_ws_head _ _ _ hc] at h
      exact absurd h (by simp)
    · have hcf : jsonWsChar c = false := by simpa using hc
      simp [skipWs, List.dropWhile, hcf]

theorem rawDecode_ne_nil (s : List Char) (x : JVal × List Char)
    (h : rawDecode s = some x) : s ≠ [] := by
  intro hs
  subst hs
  simp [rawDecode, pVal_nil] at h

/-- Delivering the bytes of a text s as a single chunk, followed by the peer
closing, hands back exactly s whenever s raw_decodes. -/
theorem recv_single_ok (s : List Char) (x : JVal × List Char)
    (h : rawDecode s = some x) :
    receiveFullResponse [utf8Encode s] .closed = .ok s (gateHit s) := by
  have hne : s ≠ [] := rawDecode_ne_nil s x h
  simp only [receiveFullResponse, recvGo, utf8Decode_encode, List.nil_append]
  by_cases hg : gateHit s = true
  · simp [hg, h]
  · simp only [Bool.not_eq_true] at hg
    simp [hg, recvGo, finalDecode, hne, h]

/-- A single undecodable nonempty delivery followed by close fails with the
incomplete-JSON error. -/
theorem recv_single_fail (s : List Char) (hne : s ≠ []) (h : rawDecode s = none) :
    receiveFullResponse [utf8Encode s] .closed = .incompleteJson := by
  have hie : s.isEmpty = false := by
    cases s
    · exact absurd rfl hne
    · rfl
  simp only [receiveFullResponse, recvGo, utf8Decode_encode, List.nil_append]
  by_cases hg : gateHit s = true
  · simp [hg, h, recvGo, finalDecode, hie]
  · simp only [Bool.not_eq_true] at hg
    simp [hg, recvGo, finalDecode, hie, h]

/-! ## Lemmas: the two-thread machine stays in its reachable set -/

theorem reachableTwo_closed :
    ∀ c ∈ reachableTwo, stepA true c ∈ reachableTwo ∧ stepB true c ∈ reachableTwo := by
  decide

theorem runSched_mem (sched : List Bool) : runSched true sched ∈ reachableTwo := by
  have key : ∀ (l : List Bool) (c : TwoCfg), c ∈ reachableTwo →
      l.foldl (fun c b => if b then stepB true c else stepA true c) c ∈ reachableTwo := by
    intro l
    induction l with
    | nil => intro c hc; simpa using hc
    | cons b bs ih =>
      intro c hc
      simp only [List.foldl_cons]
      apply ih
      rcases reachableTwo_closed c hc with ⟨hA, hB⟩
      cases b
      · simpa using hA
      · simpa using hB
  exact key sched TwoCfg.init (by decide)

/-- Every buffer at which the receive loop attempts a parse passes the gate. -/
theorem loopAttempts_gated :
    ∀ (chunks : List (List Nat)) (acc : List Char),
      ∀ p ∈ loopAttempts acc chunks, gateHit p = true := by
  intro chunks
  induction chunks with
  | nil => intro acc p hp; simp [loopAttempts] at hp
  | cons ch rest ih =>
    intro acc p hp
    simp only [loopAttempts] at hp
    cases hdec : utf8Decode ch with
    | none => rw [hdec] at hp; simp at hp
    | some cs =>
      rw [hdec] at hp
      simp only at hp
      by_cases hg : gateHit (acc ++ cs) = true
      · rw [if_pos hg] at hp
        cases hraw : rawDecode (acc ++ cs) with
        | some x =>
          rw [hraw] at hp
          simp only [List.mem_singleton] at hp
          subst hp
          exact hg
        | none =>
          rw [hraw] at hp
          simp only [List.mem_cons] at hp
          rcases hp with rfl | hp
          · exact hg
          · exact ih _ p hp
      · rw [if_neg hg] at hp
        exact ih _ p hp

/-- An ok result with the viaLoop tag set passed the gate; one whose buffer
fails the gate came from the final decode, which is only reached on close
or timeout. -/
theorem recvGo_ok_facts :
    ∀ (chunks : List (List Nat)) (acc : List Char) (e : Ending) (buf : List Char) (b : Bool),
      recvGo acc chunks e = .ok buf b →
      (b = true → gateHit buf = true) ∧
      (gateHit buf = false → b = false ∧ (e = .closed ∨ e = .timedOut)) := by
  intro chunks
  induction chunks with
  | nil =>
    intro acc e buf b h
    cases e with
    | closed =>
      simp only [recvGo] at h
      by_cases hie : acc.isEmpty
      · simp [hie] at h
      · simp only [hie, if_false, Bool.false_eq_true] at h
        rw [finalDecode, if_neg hie] at h
        cases hraw : rawDecode acc with
        | some x => rw [hraw] at h; cases h; exact ⟨by simp, fun _ => ⟨rfl, Or.inl rfl⟩⟩
        | none => rw [hraw] at h; cases h
    | timedOut =>
      simp only [recvGo] at h
      rw [finalDecode] at h
      by_cases hie : acc.isEmpty
      · simp [hie] at h
      · rw [if_neg hie] at h
        cases hraw : rawDecode acc with
        | some x => rw [hraw] at h; cases h; exact ⟨by simp, fun _ => ⟨rfl, Or.inr rfl⟩⟩
        | none => rw [hraw] at h; cases h
    | reset => simp [recvGo] at h
  | cons ch rest ih =>
    intro acc e buf b h
    simp only [recvGo] at h
    cases hdec : utf8Decode ch with
    | none => rw [hdec] at h; cases h
    | some cs =>
      rw [hdec] at h
      simp only at h
      by_cases hg : gateHit (acc ++ cs) = true
      · rw [if_pos hg] at h
        cases hraw : rawDecode (acc ++ cs) with
        | some x =>
          rw [hraw] at h
          cases h
          exact ⟨fun _ => hg, fun hf => absurd hg (by simp [hf])⟩
        | none => rw [hraw] at h; exact ih _ e buf b h
      · rw [if_neg hg] at h
        exact ih _ e buf b h

/-- rstrip ignores an all-whitespace suffix. -/
theorem pyRstrip_append_ws (l t : List Char) (h : ∀ c ∈ t, pyWsChar c = true) :
    pyRstrip (l ++ t) = pyRstrip l := by
  simp only [pyRstrip, List.reverse_append]
  rw [List.dropWhile_append]
  have hdw : t.reverse.dropWhile pyWsChar = [] := by
    rw [List.dropWhile_eq_nil_iff]
    intro c hc
    exact h c (List.mem_reverse.mp hc)
  rw [hdw]
  simp

/-- rstrip keeps a buffer ending in a non-whitespace character whole. -/
theorem pyRstrip_append_last (l : List Char) (d : Char) (hd : pyWsChar d = false) :
    pyRstrip (l ++ [d]) = l ++ [d] := by
  simp only [pyRstrip, List.reverse_append]
  simp [List.dropWhile_cons, hd]

theorem gateHit_append_ws (l t : List Char) (h : ∀ c ∈ t, pyWsChar c = true) :
    gateHit (l ++ t) = gateHit l := by
  simp [gateHit, pyRstrip_append_ws l t h]

/-- A buffer whose last character is non-whitespace and not a closing brace
misses the completion gate. -/
theorem gateHit_last_nonbrace (q : List Char) (d : Char)
    (hd : pyWsChar d = false) (hne : d ≠ '}') :
    gateHit (q ++ [d]) = false := by
  simp only [gateHit, pyRstrip_append_last q d hd]
  rw [List.getLast?_concat]
  simp [hne]

/-- A gate-hitting prefix on which raw_decode succeeds agrees with the whole
buffer: its parse is the whole document, the whole buffer also gate-hits,
and raw_decode succeeds on it too. -/
theorem prefix_decode_agree (P rest : List Char) (w v : JVal) (prem : List Char)
    (hgate : gateHit P = true)
    (hP : rawDecode P = some (w, prem))
    (hload : loads (P ++ rest) = some v) :
    loads P = some v ∧ gateHit (P ++ rest) = true ∧
      ∃ pr, rawDecode (P ++ rest) = some (v, pr) := by
  have hheadP : skipWs P = P := skipWs_eq_of_rawDecode P _ hP
  have hskipC : skipWs (P ++ rest) = P ++ rest := by
    cases P with
    | nil => exact absurd hP (by simp [rawDecode, pVal_nil])
    | cons c r =>
      have hc : jsonWsChar c = false := by
        by_contra hcc
        simp only [Bool.not_eq_false] at hcc
        have hx := hheadP
        simp only [skipWs, List.dropWhile_cons, hcc, if_true] at hx
        have hlen := congrArg List.length hx
        have hle := (List.dropWhile_suffix (l := r) jsonWsChar).length_le
        simp at hlen
        omega
      simp [skipWs, List.dropWhile_cons, hc]
  rw [loads, hskipC] at hload
  cases hC : rawDecode (P ++ rest) with
  | none => rw [hC] at hload; exact absurd hload (by simp)
  | some pr =>
    obtain ⟨vC, remC⟩ := pr
    rw [hC] at hload
    have hload2 : (if skipWs remC = [] then some vC else none) = some v := hload
    by_cases hws : skipWs remC = []
    case neg =>
      rw [if_neg hws] at hload2
      exact absurd hload2 (by simp)
    case pos =>
    rw [if_pos hws] at hload2
    simp only [Option.some.injEq] at hload2
    have hcons := pRun_consumed (fuelFor P) PMode.val P w prem hP
    obtain ⟨⟨q0, hq0⟩, hdis⟩ := hcons
    have hfuel : fuelFor P ≤ fuelFor (P ++ rest) := by
      simp only [fuelFor, List.length_append]
      omega
    have hallws := skipWs_eq_nil_all_ws remC hws
    by_cases hmem : prem ∈ numTailExts
    · exfalso
      fin_cases hmem
      · rw [hq0, gateHit_last_nonbrace q0 '.' (by decide) (by decide)] at hgate
        exact absurd hgate (by simp)
      · rw [hq0, gateHit_last_nonbrace q0 'e' (by decide) (by decide)] at hgate
        exact absurd hgate (by simp)
      · rw [hq0, gateHit_last_nonbrace q0 'E' (by decide) (by decide)] at hgate
        exact absurd hgate (by simp)
      · rw [hq0, show q0 ++ ['e', '+'] = (q0 ++ ['e']) ++ ['+'] by simp] at hgate
        rw [gateHit_last_nonbrace (q0 ++ ['e']) '+' (by decide) (by decide)] at hgate
        exact absurd hgate (by simp)
      · rw [hq0, show q0 ++ ['e', '-'] = (q0 ++ ['e']) ++ ['-'] by simp] at hgate
        rw [gateHit_last_nonbrace (q0 ++ ['e']) '-' (by decide) (by decide)] at hgate
        exact absurd hgate (by simp)
      · rw [hq0, show q0 ++ ['E', '+'] = (q0 ++ ['E']) ++ ['+'] by simp] at hgate
        rw [gateHit_last_nonbrace (q0 ++ ['E']) '+' (by decide) (by decide)] at hgate
        exact absurd hgate (by simp)
      · rw [hq0, show q0 ++ ['E', '-'] = (q0 ++ ['E']) ++ ['-'] by simp] at hgate
        rw [gateHit_last_nonbrace (q0 ++ ['E']) '-' (by decide) (by decide)] at hgate
        exact absurd hgate (by simp)
    · by_cases hnil : prem = []
      · subst hnil
        have hbr : ∃ r', P = '{' :: r' := by
          rcases hdis with h' | ⟨q, d, hqd, hwd, hdne⟩
          · exact h'
          · exfalso
            rw [hqd, gateHit_last_nonbrace q d hwd hdne] at hgate
            exact absurd hgate (by simp)
        have hext := pRun_ext (fuelFor P) PMode.val P w [] rest hP
          (fun _ => Or.inl hbr)
        have hC2 : pRun (fuelFor (P ++ rest)) PMode.val (P ++ rest) =
            some (w, [] ++ rest) :=
          pRun_mono_le (fuelFor P) (fuelFor (P ++ rest)) PMode.val (P ++ rest)
            (w, [] ++ rest) hfuel hext
        have hCC : pRun (fuelFor (P ++ rest)) PMode.val (P ++ rest) =
            some (vC, remC) := hC
        have heq := hCC.symm.trans hC2
        simp only [Option.some.injEq, Prod.mk.injEq, List.nil_append] at heq
        obtain ⟨hvw, hrr⟩ := heq
        refine ⟨?_, ?_, remC, ?_⟩
        · have hlp : loads P = some w := by
            rw [loads, hheadP, hP]
            rfl
          rw [hlp, ← hvw, hload2]
        · subst hrr
          rw [gateHit_append_ws P remC (fun c hc => jsonWs_imp_pyWs c (hallws c hc))]
          exact hgate
        · rw [hload2]
      · have hext := pRun_ext (fuelFor P) PMode.val P w prem rest hP
          (fun _ => Or.inr (Or.inr ⟨hnil, hmem⟩))
        have hC2 : pRun (fuelFor (P ++ rest)) PMode.val (P ++ rest) =
            some (w, prem ++ rest) :=
          pRun_mono_le (fuelFor P) (fuelFor (P ++ rest)) PMode.val (P ++ rest)
            (w, prem ++ rest) hfuel hext
        have hCC : pRun (fuelFor (P ++ rest)) PMode.val (P ++ rest) =
            some (vC, remC) := hC
        have heq := hCC.symm.trans hC2
        simp only [Option.some.injEq, Prod.mk.injEq] at heq
        obtain ⟨hvw, hrr⟩ := heq
        have hpremws : ∀ c ∈ prem, jsonWsChar c = true := by
          intro c hc
          exact hallws c (by rw [hrr]; exact List.mem_append_left rest hc)
        have hrestws : ∀ c ∈ rest, jsonWsChar c = true := by
          intro c hc
          exact hallws c (by rw [hrr]; exact List.mem_append_right prem hc)
        have hsp : skipWs prem = [] := by
          rw [skipWs, List.dropWhile_eq_nil_iff]
          exact hpremws
        refine ⟨?_, ?_, remC, ?_⟩
        · have hlp0 : (if skipWs prem = [] then some w else none) = loads P := by
            rw [loads, hheadP, hP]
          rw [← hlp0, if_pos hsp, ← hvw, hload2]
        · rw [gateHit_append_ws P rest (fun c hc => jsonWs_imp_pyWs c (hrestws c hc))]
          exact hgate
        · rw [hload2]

/-- Receiving one chunk holding x ++ y from acc is the same as receiving one
chunk holding y from acc ++ x: the loop state only tracks the accumulated
text. -/
theorem single_shift (acc x y : List Char) (e : Ending) :
    recvGo acc [utf8Encode (x ++ y)] e = recvGo (acc ++ x) [utf8Encode y] e := by
  simp only [recvGo, utf8Decode_encode]
  simp [List.append_assoc]

/-- Chunked receive against single-chunk receive over the same bytes: either
both runs fall through identically, or both return buffers that parse to
the document. -/
theorem recvGo_chunked (v : JVal) :
    ∀ (css : List (List Char)) (acc : List Char) (e : Ending),
      css ≠ [] →
      loads (acc ++ css.flatten) = some v →
      recvGo acc (css.map utf8Encode) e = recvGo acc [utf8Encode css.flatten] e ∨
      (∃ b1 b2 w1 w2, recvGo acc (css.map utf8Encode) e = .ok b1 w1 ∧
        recvGo acc [utf8Encode css.flatten] e = .ok b2 w2 ∧
        loads b1 = some v ∧ loads b2 = some v) := by
  intro css
  induction css with
  | nil => intro acc e hne; exact absurd rfl hne
  | cons cl css' ih =>
    intro acc e hne hload
    by_cases hcss : css' = []
    · subst hcss
      left
      simp
    · simp only [List.map_cons, List.flatten_cons] at *
      rw [show cl ++ css'.flatten = cl ++ css'.flatten from rfl] at hload
      by_cases hg : gateHit (acc ++ cl) = true
      · cases hrdc : rawDecode (acc ++ cl) with
        | some pr =>
          obtain ⟨w, prem⟩ := pr
          right
          have hl2 : loads ((acc ++ cl) ++ css'.flatten) = some v := by
            rw [List.append_assoc]
            exact hload
          obtain ⟨hl1, hg2, ⟨pr2, hrd2⟩⟩ :=
            prefix_decode_agree (acc ++ cl) css'.flatten w v prem hg hrdc hl2
          refine ⟨acc ++ cl, acc ++ (cl ++ css'.flatten), true, true, ?_, ?_, hl1, ?_⟩
          · simp only [recvGo, utf8Decode_encode]
            simp [hg, hrdc]
          · simp only [recvGo, utf8Decode_encode]
            rw [List.append_assoc] at hg2 hrd2
            simp [hg2, hrd2]
          · rw [List.append_assoc] at hl2
            exact hl2
        | none =>
          have hstep1 : recvGo acc (utf8Encode cl :: css'.map utf8Encode) e =
              recvGo (acc ++ cl) (css'.map utf8Encode) e := by
            simp only [recvGo, utf8Decode_encode]
            simp [hg, hrdc]
          rw [hstep1, single_shift acc cl css'.flatten e]
          exact ih (acc ++ cl) e hcss (by rw [List.append_assoc]; exact hload)
      · have hstep1 : recvGo acc (utf8Encode cl :: css'.map utf8Encode) e =
            recvGo (acc ++ cl) (css'.map utf8Encode) e := by
          simp only [recvGo, utf8Decode_encode]
          simp [hg]
        rw [hstep1, single_shift acc cl css'.flatten e]
        exact ih (acc ++ cl) e hcss (by rw [List.append_assoc]; exact hload)

/-! ## The claims -/

/-- Claim C7: disconnect never raises and is idempotent: on a never-connected
or already-disconnected instance it does nothing; with a socket present it
closes it, suppressing close-time errors, and the handle is unconditionally
cleared afterwards even when close itself threw. -/
theorem claimC7_disconnect_safe :
    (∀ closeRaises, disconnect none closeRaises = (none, false)) ∧
    (∀ sock closeRaises, (disconnect sock closeRaises).1 = none ∧
      (disconnect sock closeRaises).2 = false) ∧
    (∀ sock b b', disconnect (disconnect sock b).1 b' = (none, false)) := by
  refine ⟨fun _ => rfl, fun sock b => ?_, fun sock b b' => ?_⟩
  · cases sock <;> cases b <;> exact ⟨rfl, rfl⟩
  · cases sock <;> cases b <;> cases b' <;> rfl

/-- Claim C6: with no cached instance, get_connection either caches and
returns a freshly connected instance, or - when connect fails - leaves the
slot empty and raises an error whose text contains the make-sure-the-
plugin-is-running guidance; any later call returns the cached instance with
no further connect call. -/
theorem claimC6_getConnection_cache :
    (∀ st : MgrState, st.slot = none →
      getConnection false st =
        (⟨none, st.nextId + 1, st.constructed + 1, st.connectCalls + 1⟩,
          .raisedCouldNotConnect)) ∧
    (strCodes "Make sure").IsInfix couldNotConnectMsg ∧
    (∀ st : MgrState, st.slot = none →
      getConnection true st =
        (⟨some st.nextId, st.nextId + 1, st.constructed + 1, st.connectCalls + 1⟩,
          .got st.nextId)) ∧
    (∀ (p : Bool) (st : MgrState) (id : Nat), st.slot = some id →
      getConnection p st = (st, .got id)) := by
  refine ⟨?_, by decide, ?_, ?_⟩
  · intro st h
    obtain ⟨sl, ni, co, cc⟩ := st
    cases h
    rfl
  · intro st h
    obtain ⟨sl, ni, co, cc⟩ := st
    cases h
    rfl
  · intro p st id h
    obtain ⟨sl, ni, co, cc⟩ := st
    cases h
    rfl

theorem claimC6_witness :
    getConnection false MgrState.init = (⟨none, 1, 1, 1⟩, .raisedCouldNotConnect) ∧
    getConnection true MgrState.init = (⟨some 0, 1, 1, 1⟩, .got 0) ∧
    getConnection true ⟨some 0, 1, 1, 1⟩ = (⟨some 0, 1, 1, 1⟩, .got 0) :=
  ⟨claimC6_getConnection_cache.1 MgrState.init rfl,
   claimC6_getConnection_cache.2.2.1 MgrState.init rfl,
   claimC6_getConnection_cache.2.2.2 true ⟨some 0, 1, 1, 1⟩ 0 rfl⟩

/-- Claim C8: for every interleaving of two threads calling the singleton
accessor from the initial empty state (the lock making acquire, the
construct-or-return body, and release mutually exclusive), if both threads
finish then they saw the same instance, and exactly one connection object
was ever constructed. -/
theorem claimC8_singleton_race :
    ∀ (sched : List Bool) (ra rb : GetRes),
      (runSched true sched).phA = .finished ra →
      (runSched true sched).phB = .finished rb →
      ra = rb ∧ (runSched true sched).mgr.constructed = 1 ∧
        (runSched true sched).mgr.slot = some 0 ∧ ra = .got 0 := by
  intro sched ra rb hA hB
  have hm := runSched_mem sched
  simp only [reachableTwo, List.mem_cons, List.not_mem_nil, or_false] at hm
  rcases hm with h | h | h | h | h | h | h | h | h | h | h | h <;>
    rw [h] at hA hB ⊢ <;> simp_all

theorem claimC8_witness :
    (runSched true [false, false, false, true, true, true]).phA = .finished (.got 0) ∧
    (runSched true [false, false, false, true, true, true]).phB = .finished (.got 0) ∧
    ((GetRes.got 0) = (GetRes.got 0) ∧
      (runSched true [false, false, false, true, true, true]).mgr.constructed = 1 ∧
      (runSched true [false, false, false, true, true, true]).mgr.slot = some 0 ∧
      (GetRes.got 0) = .got 0) :=
  ⟨rfl, rfl, claimC8_singleton_race [false, false, false, true, true, true]
    (.got 0) (.got 0) rfl rfl⟩

/-- Claim C5: a peer that closes having sent zero bytes produces the
empty-response failure, and a peer that closes after sending bytes that do
not raw_decode produces the incomplete-JSON failure; the two failures (and
their message texts) are distinct. -/
theorem claimC5_empty_vs_malformed :
    sendCommand true true (.deliver [] .closed) = (.commErr .closedNoData, false) ∧
    (∀ s : List Char, s ≠ [] → rawDecode s = none →
      sendCommand true true (.deliver [utf8Encode s] .closed) =
        (.commErr .incompleteJson, false)) ∧
    CommInner.closedNoData ≠ CommInner.incompleteJson ∧
    msgOf (.commErr .closedNoData) ≠ msgOf (.commErr .incompleteJson) := by
  refine ⟨rfl, ?_, by simp, by decide⟩
  intro s hne h
  simp [sendCommand, recv_single_fail s hne h]

theorem claimC5_witness :
    ([Char.ofNat 123] : List Char) ≠ [] ∧ rawDecode [Char.ofNat 123] = none ∧
    sendCommand true true (.deliver [utf8Encode [Char.ofNat 123]] .closed) =
      (.commErr .incompleteJson, false) :=
  ⟨by decide, rfl,
    claimC5_empty_vs_malformed.2.1 [Char.ofNat 123] (by decide) rfl⟩

/-- Claim C9: a buffer that is one complete JSON object followed by
non-whitespace trailing text is accepted whole by receive_full_response
(prefix-tolerant raw_decode succeeds) but the whole-buffer json.loads in
send_command then fails, surfacing the invalid-response error, with the
socket handle left in place. -/
theorem claimC9_trailing_garbage (s : List Char) (fields : List (List Nat × JVal))
    (rem : List Char) (h : rawDecode s = some (JVal.jobj fields, rem))
    (hrem : skipWs rem ≠ []) :
    receiveFullResponse [utf8Encode s] .closed = .ok s (gateHit s) ∧
    sendCommand true true (.deliver [utf8Encode s] .closed) = (.invalidResponse, true) := by
  have hok := recv_single_ok s _ h
  refine ⟨hok, ?_⟩
  have hloads : loads s = none := by
    rw [loads, skipWs_eq_of_rawDecode s _ h, h]
    simp [hrem]
  simp [sendCommand, hok, processResponse, hloads]

theorem claimC9_witness :
    rawDecode [Char.ofNat 123, Char.ofNat 125, 'x'] =
      some (JVal.jobj [], ['x']) ∧
    skipWs ['x'] ≠ [] ∧
    receiveFullResponse [utf8Encode [Char.ofNat 123, Char.ofNat 125, 'x']] .closed =
      .ok [Char.ofNat 123, Char.ofNat 125, 'x']
        (gateHit [Char.ofNat 123, Char.ofNat 125, 'x']) ∧
    sendCommand true true
        (.deliver [utf8Encode [Char.ofNat 123, Char.ofNat 125, 'x']] .closed) =
      (.invalidResponse, true) := by
  refine ⟨rfl, by decide, ?_⟩
  exact claimC9_trailing_garbage [Char.ofNat 123, Char.ofNat 125, 'x'] [] ['x'] rfl (by decide)

/-- Claim C10: the receive loop attempts a JSON parse only when the
accumulated buffer, stripped of trailing whitespace, ends with the
closing-brace character; consequently a returned buffer whose trimmed text
does not end that way was never returned from within the loop - it came
from the final decode, which is reached only after the peer closes or the
read times out. -/
theorem claimC10_heuristic :
    (∀ (chunks : List (List Nat)) (acc : List Char),
      ∀ p ∈ loopAttempts acc chunks, gateHit p = true) ∧
    (∀ (chunks : List (List Nat)) (e : Ending) (buf : List Char) (b : Bool),
      receiveFullResponse chunks e = .ok buf b →
      (b = true → gateHit buf = true) ∧
      (gateHit buf = false → b = false ∧ (e = .closed ∨ e = .timedOut))) :=
  ⟨loopAttempts_gated,
   fun chunks e buf b h => recvGo_ok_facts chunks [] e buf b h⟩

/-- Claim C1 (counterexample to the claim as stated): for the concrete
response with status error and message boom, the raised message is the
wrapped communication-error text, not boom itself, and the socket handle
has been cleared - the remote error did invalidate the transport. -/
theorem claimC1_counterexample :
    sendCommand true true
        (.deliver [utf8Encode "\x7b\"status\":\"error\",\"message\":\"boom\"\x7d".toList]
          .closed) =
      (.commErr (.remoteErr (some (.jstr (strCodes "boom")))), false) ∧
    msgOf (SCOutcome.commErr (.remoteErr (some (.jstr (strCodes "boom"))))) ≠
      some (strCodes "boom") ∧
    msgOf (SCOutcome.commErr (.remoteErr (some (.jstr (strCodes "boom"))))) =
      some (strCodes "Communication error with plugin: boom") :=
  ⟨rfl, by decide, by decide⟩

/-- Claim C1 (amended): a complete single-chunk JSON-object response with
status error makes send_command fail with the remote message wrapped into
the communication-error text (the raise inside the try block is caught by
the function's own catch-all except Exception), and the socket handle is
cleared to None, so a remote-reported error does invalidate the
transport. -/
theorem claimC1_remote_error (s : List Char) (fields : List (List Nat × JVal))
    (rem : List Char) (h : rawDecode s = some (JVal.jobj fields, rem))
    (hrem : skipWs rem = []) (hst : statusIsError fields = true) :
    sendCommand true true (.deliver [utf8Encode s] .closed) =
      (.commErr (.remoteErr (objGet fields (strCodes "message"))), false) ∧
    (∀ M, objGet fields (strCodes "message") = some (.jstr M) →
      msgOf (SCOutcome.commErr (.remoteErr (objGet fields (strCodes "message")))) =
        some (strCodes "Communication error with plugin: " ++ M)) := by
  have hok := recv_single_ok s _ h
  have hloads : loads s = some (JVal.jobj fields) := by
    rw [loads, skipWs_eq_of_rawDecode s _ h, h]
    simp [hrem]
  constructor
  · simp [sendCommand, hok, processResponse, hloads, hst]
  · intro M hM
    rw [hM]
    simp [msgOf, commInnerMsg]

theorem claimC1_witness :
    sendCommand true true
        (.deliver [utf8Encode "\x7b\"status\":\"error\",\"message\":\"boom\"\x7d".toList]
          .closed) =
      (.commErr (.remoteErr (objGet
        [(strCodes "status", JVal.jstr (strCodes "error")),
         (strCodes "message", JVal.jstr (strCodes "boom"))] (strCodes "message"))), false) ∧
    msgOf (SCOutcome.commErr (.remoteErr (objGet
        [(strCodes "status", JVal.jstr (strCodes "error")),
         (strCodes "message", JVal.jstr (strCodes "boom"))] (strCodes "message")))) =
      some (strCodes "Communication error with plugin: " ++ strCodes "boom") := by
  have h := claimC1_remote_error "\x7b\"status\":\"error\",\"message\":\"boom\"\x7d".toList
    [(strCodes "status", JVal.jstr (strCodes "error")),
     (strCodes "message", JVal.jstr (strCodes "boom"))] [] rfl rfl rfl
  exact ⟨h.1, h.2 (strCodes "boom") rfl⟩

/-- Claim C2 (counterexample to the claim as stated): a JSON decode failure
of the received bytes (a buffer the framing layer accepted whose
whole-buffer parse fails) propagates the invalid-response error while the
socket handle stays set - the JSONDecodeError handler is the one handler
that does not null the socket. -/
theorem claimC2_counterexample :
    sendCommand true true
        (.deliver [utf8Encode [Char.ofNat 123, Char.ofNat 125, 'x']] .closed) =
      (.invalidResponse, true) ∧
    ¬ ((sendCommand true true
        (.deliver [utf8Encode [Char.ofNat 123, Char.ofNat 125, 'x']] .closed)).2 = false) :=
  ⟨rfl, by decide⟩

/-- Claim C2 (amended): on a connected instance, a socket timeout or a
connection reset / broken pipe during the send or receive phase, and every
plain-Exception failure of the receive phase, clear the socket handle
before the descriptive failure propagates, so the next call reconnects; a
JSON decode failure of the received buffer, by contrast, propagates the
invalid-response failure with the socket handle left in place. -/
theorem claimC2_sock_invalidation (w : Wire) :
    ((sendCommand true true w).1 = .timeoutErr → (sendCommand true true w).2 = false) ∧
    ((sendCommand true true w).1 = .connLost → (sendCommand true true w).2 = false) ∧
    (∀ i, (sendCommand true true w).1 = .commErr i → (sendCommand true true w).2 = false) ∧
    ((sendCommand true true w).1 = .invalidResponse → (sendCommand true true w).2 = true) := by
  cases w with
  | sendFail k => cases k <;> simp [sendCommand]
  | deliver chunks e =>
    simp only [sendCommand, Bool.not_true, Bool.false_and, Bool.false_eq_true, if_false]
    cases hr : receiveFullResponse chunks e with
    | ok buf b =>
      cases hp : processResponse buf <;> simp [hp]
    | closedNoData => simp
    | incompleteJson => simp
    | noData => simp
    | connReset => simp
    | badUtf8 => simp

theorem claimC2_witness :
    ((sendCommand true true (.sendFail .sendTimeout)).1 = .timeoutErr →
      (sendCommand true true (.sendFail .sendTimeout)).2 = false) ∧
    ((sendCommand true true (.sendFail .sendTimeout)).1 = .connLost →
      (sendCommand true true (.sendFail .sendTimeout)).2 = false) ∧
    (∀ i, (sendCommand true true (.sendFail .sendTimeout)).1 = .commErr i →
      (sendCommand true true (.sendFail .sendTimeout)).2 = false) ∧
    ((sendCommand true true (.sendFail .sendTimeout)).1 = .invalidResponse →
      (sendCommand true true (.sendFail .sendTimeout)).2 = true) :=
  claimC2_sock_invalidation (.sendFail .sendTimeout)

/-- Claim C3 (counterexample to the claim as stated): a response whose bytes
json.loads would happily parse as a status-success object but which begins
with a whitespace byte is rejected: raw_decode tolerates no leading
whitespace, the receive loop never completes, and send_command raises the
incomplete-JSON communication error instead of returning the result. -/
theorem claimC3_counterexample :
    loads (' ' :: "\x7b\"status\":\"success\",\"result\":5\x7d".toList) =
      some (JVal.jobj
        [(strCodes "status", JVal.jstr (strCodes "success")),
         (strCodes "result", JVal.jnum ['5'])]) ∧
    sendCommand true true
        (.deliver [utf8Encode (' ' :: "\x7b\"status\":\"success\",\"result\":5\x7d".toList)]
          .closed) =
      (.commErr .incompleteJson, false) ∧
    (SCOutcome.commErr CommInner.incompleteJson).isResult = false :=
  ⟨rfl, rfl, rfl⟩

/-- Claim C3 (amended): a single-chunk response that parses as a JSON object
with no leading whitespace and whose status is not the string error makes
send_command return exactly its result field, or the empty mapping when the
result field is absent. -/
theorem claimC3_success_result (s : List Char) (fields : List (List Nat × JVal))
    (rem : List Char) (h : rawDecode s = some (JVal.jobj fields, rem))
    (hrem : skipWs rem = []) (hst : statusIsError fields = false) :
    sendCommand true true (.deliver [utf8Encode s] .closed) =
      (.result ((objGet fields (strCodes "result")).getD (JVal.jobj [])), true) ∧
    (∀ R, objGet fields (strCodes "result") = some R →
      sendCommand true true (.deliver [utf8Encode s] .closed) = (.result R, true)) ∧
    (objGet fields (strCodes "result") = none →
      sendCommand true true (.deliver [utf8Encode s] .closed) =
        (.result (JVal.jobj []), true)) := by
  have hok := recv_single_ok s _ h
  have hloads : loads s = some (JVal.jobj fields) := by
    rw [loads, skipWs_eq_of_rawDecode s _ h, h]
    simp [hrem]
  have hmain : sendCommand true true (.deliver [utf8Encode s] .closed) =
      (.result ((objGet fields (strCodes "result")).getD (JVal.jobj [])), true) := by
    simp [sendCommand, hok, processResponse, hloads, hst]
  refine ⟨hmain, fun R hR => ?_, fun hR => ?_⟩
  · rw [hmain, hR]
    rfl
  · rw [hmain, hR]
    rfl

theorem claimC3_witness :
    sendCommand true true
        (.deliver
          [utf8Encode "\x7b\"status\":\"success\",\"result\":\x7b\"id\":\"abc\"\x7d\x7d".toList]
          .closed) =
      (.result (JVal.jobj [(strCodes "id", JVal.jstr (strCodes "abc"))]), true) ∧
    sendCommand true true (.deliver [utf8Encode "\x7b\"status\":\"success\"\x7d".toList]
        .closed) =
      (.result (JVal.jobj []), true) :=
  ⟨(claimC3_success_result
      "\x7b\"status\":\"success\",\"result\":\x7b\"id\":\"abc\"\x7d\x7d".toList
      [(strCodes "status", JVal.jstr (strCodes "success")),
       (strCodes "result", JVal.jobj [(strCodes "id", JVal.jstr (strCodes "abc"))])]
      [] rfl rfl rfl).2.1
      (JVal.jobj [(strCodes "id", JVal.jstr (strCodes "abc"))]) rfl,
   (claimC3_success_result "\x7b\"status\":\"success\"\x7d".toList
      [(strCodes "status", JVal.jstr (strCodes "success"))]
      [] rfl rfl rfl).2.2 rfl⟩

theorem claimC10_witness :
    gateHit [Char.ofNat 123, Char.ofNat 125] = true ∧
    (false = false ∧ (Ending.closed = .closed ∨ Ending.closed = .timedOut)) := by
  constructor
  · exact claimC10_heuristic.1 [utf8Encode [Char.ofNat 123, Char.ofNat 125]] []
      [Char.ofNat 123, Char.ofNat 125] (by decide)
  · exact (claimC10_heuristic.2 [utf8Encode ['[', '1', ']']] .closed ['[', '1', ']'] false
      rfl).2 (by decide)

/-- C4, counterexample: the chunking-transparency property fails for byte
chunks in general.  Splitting the response \x7b"status":"success","result":"é"\x7d
between the two UTF-8 bytes of é makes the per-chunk strict decode raise,
so send_command fails, while the identical bytes in a single chunk produce
the result — the loop output depends on the split, not only on the
concatenation. -/
theorem claimC4_counterexample :
    ∃ (b1 b2 : List Nat) (e : Ending) (doc : List Char),
      b1 ++ b2 = utf8Encode doc ∧ (loads doc).isSome = true ∧
      (sendCommand true true (.deliver [b1 ++ b2] e)).1.isResult = true ∧
      (sendCommand true true (.deliver [b1, b2] e)).1.isResult = false := by
  refine ⟨utf8Encode "\x7b\"status\":\"success\",\"result\":\"".toList ++ [195],
    [169] ++ utf8Encode "\"\x7d".toList, Ending.closed,
    "\x7b\"status\":\"success\",\"result\":\"".toList ++ [Char.ofNat 233] ++
      "\"\x7d".toList, ?_, ?_, ?_, ?_⟩
  · rfl
  · rfl
  · rfl
  · rfl

/-- C4 (amended): chunking-transparency holds when every chunk boundary
falls on a character boundary of the UTF-8 stream: delivery of a
loads-valid document across N ≥ 2 nonempty chunks gives the same
send_command outcome as single-chunk delivery of the concatenation, for
every ending of the stream. -/
theorem claimC4_chunking_amended (css : List (List Char)) (v : JVal) (e : Ending)
    (hlen : 2 ≤ css.length)
    (hnem : ∀ cl ∈ css, cl ≠ [])
    (hv : loads css.flatten = some v) :
    sendCommand true true (.deliver (css.map utf8Encode) e) =
      sendCommand true true (.deliver [utf8Encode css.flatten] e) := by
  have hne : css ≠ [] := by
    intro h0
    rw [h0] at hlen
    simp at hlen
  have hload : loads ([] ++ css.flatten) = some v := by simpa using hv
  rcases recvGo_chunked v css [] e hne hload with
    heq | ⟨b1, b2, w1, w2, h1, h2, hl1, hl2⟩
  · simp only [sendCommand, receiveFullResponse]
    rw [heq]
  · simp only [sendCommand, receiveFullResponse]
    rw [h1, h2]
    simp only [processResponse, hl1, hl2]

theorem claimC4_witness :
    sendCommand true true
        (.deliver ([['\x7b'], ['\x7d']].map utf8Encode) Ending.closed) =
      sendCommand true true
        (.deliver [utf8Encode [['\x7b'], ['\x7d']].flatten] Ending.closed) :=
  claimC4_chunking_amended [['\x7b'], ['\x7d']] (JVal.jobj []) Ending.closed
    (by decide) (by decide) (by rfl)

end RhinoMCP
